import Mathlib

/-!
# SHAPE_INDEX_LIST (include/geometry/shape_index_list.h) and rescale (include/math/math_util.h)

A shallow embedding of the linear shape index of the geometry library and
of its two traversal protocols, followed by the two integer
specialisations of `rescale`.

* The vector `m_shapes` is a `List`; a vector iterator (`ShapeVecIter`) is
  a position `Nat` into it, `begin()` being `0` and `end()` the length.
* Dereferencing a position outside the vector is undefined behaviour in
  the source; the embedding returns `none` there.
* `SHAPE`, `BOX2I` and the shape functor are external to the header. They
  are taken as a record of operations (`ShapeOps`), so that every theorem
  holds for any implementation of them.
* A visitor is a C++ functor taken by reference: it may carry state. It is
  a function `σ → T → Bool × σ`, the state being threaded through `Query`.
* Counters (`int n`, `int Size()`) are natural numbers: a vector of fewer
  than `2^31` entries is assumed, so that they do not wrap.
-/

namespace ShapeIndexList

/-! ## Machine integers -/

/-- Smallest value of the 32-bit `int`. -/
def INT_MIN : Int := -2147483648

/-- Largest value of the 32-bit `int`. -/
def INT_MAX : Int := 2147483647

/-- Values of the 32-bit `int` type, the type of `aMinDistance`. -/
def isInt (x : Int) : Prop := INT_MIN ≤ x ∧ x ≤ INT_MAX

instance (x : Int) : Decidable (isInt x) := by
  unfold isInt; exact inferInstance

/-- Two's complement wrap of an integer to the signed 64-bit range, the
range of `VECTOR2I::extended_type`. -/
def wrapInt64 (x : Int) : Int := (x + 2 ^ 63) % 2 ^ 64 - 2 ^ 63

/-! ## External collaborators -/

/-- Operations the header consumes from the rest of the geometry library,
for items `T`, shapes `S` (the pointees of `const SHAPE *`) and boxes `B`
(`BOX2I`). A `SHAPE *` that may be `NULL` is an `Option S`. -/
structure ShapeOps (T S B : Type) where
  /-- Template argument `ShapeFunctor`: the shape of an item. -/
  ShapeFunctor : T → S
  /-- Method `SHAPE::BBox( aClearance )`; called without argument it takes
  clearance `0`. -/
  BBox : S → Int → B
  /-- Method `SHAPE::Collide( aShape, aClearance )` of the first argument. -/
  Collide : S → Option S → Int → Bool
  /-- Method `BOX2I::Distance( aBox )` of the first argument. -/
  Distance : B → B → Int
  /-- Method `BOX2I::SquaredDistance( aBox )` of the first argument. -/
  SquaredDistance : B → B → Int
  /-- Value of a default-constructed `BOX2I`. -/
  defaultBox : B

/-! ## Entries -/

/-- Entry of the index: `struct ShapeEntry`. -/
structure ShapeEntry (T S B : Type) where
  parent : T
  shape : S
  bbox : B
  deriving DecidableEq, Repr

/-- Constructor `ShapeEntry( T aParent )`. -/
def ShapeEntry.ctor {T S B : Type} (ops : ShapeOps T S B) (aParent : T) :
    ShapeEntry T S B :=
  let shape := ops.ShapeFunctor aParent
  { shape := shape, bbox := ops.BBox shape 0, parent := aParent }

/-- Type `ShapeVec`: the vector of entries. -/
abbrev ShapeVec (T S B : Type) := List (ShapeEntry T S B)

/-! ## Plain iterator -/

/-- Class `iterator`: a position in the vector. -/
structure iterator where
  m_current : Nat
  deriving DecidableEq, Repr

/-- Method `iterator::operator*`. -/
def iterator.deref {T S B : Type} (m_shapes : ShapeVec T S B) (it : iterator) :
    Option T :=
  (m_shapes[it.m_current]?).map (fun e => e.parent)

/-- Method `iterator::operator++`. -/
def iterator.inc (it : iterator) : iterator :=
  { m_current := it.m_current + 1 }

/-- Method `iterator::operator==`. -/
def iterator.op_eq (a b : iterator) : Bool :=
  a.m_current == b.m_current

/-- Method `iterator::operator!=`. -/
def iterator.op_ne (a b : iterator) : Bool :=
  a.m_current != b.m_current

/-! ## Query iterator -/

/-- Class `query_iterator`. -/
structure query_iterator (S B : Type) where
  m_end : Nat
  m_current : Nat
  m_refBBox : B
  m_exact : Bool
  m_shape : Option S
  m_minDistance : Int
  deriving DecidableEq, Repr

/-- Test of the body of `query_iterator::next` on the entry under
`m_current`: the box distance test, then the collision test when
`m_exact` is set. -/
def query_iterator.accepts {T S B : Type} (ops : ShapeOps T S B)
    (it : query_iterator S B) (e : ShapeEntry T S B) : Bool :=
  if ops.Distance it.m_refBBox e.bbox ≤ it.m_minDistance then
    (!it.m_exact || ops.Collide e.shape it.m_shape it.m_minDistance)
  else false

/-- Loop of `query_iterator::next`, one iteration per unit of fuel. -/
def query_iterator.nextLoop {T S B : Type} (ops : ShapeOps T S B)
    (m_shapes : ShapeVec T S B) :
    Nat → query_iterator S B → Option (query_iterator S B)
  | 0, _ => none
  | fuel + 1, it =>
    if it.m_current ≠ it.m_end then
      match m_shapes[it.m_current]? with
      | none => none
      | some e =>
        if query_iterator.accepts ops it e then some it
        else query_iterator.nextLoop ops m_shapes fuel
          { it with m_current := it.m_current + 1 }
    else some it

/-- Method `query_iterator::next`. The loop reads one more entry of the
vector at each iteration, so `length + 1` iterations end it. -/
def query_iterator.next {T S B : Type} (ops : ShapeOps T S B)
    (m_shapes : ShapeVec T S B) (it : query_iterator S B) :
    Option (query_iterator S B) :=
  query_iterator.nextLoop ops m_shapes (m_shapes.length + 1) it

/-- Constructor `query_iterator( aCurrent, aEnd, aShape, aMinDistance,
aExact )`. -/
def query_iterator.ctor {T S B : Type} (ops : ShapeOps T S B)
    (m_shapes : ShapeVec T S B) (aCurrent aEnd : Nat) (aShape : Option S)
    (aMinDistance : Int) (aExact : Bool) : Option (query_iterator S B) :=
  let it : query_iterator S B :=
    { m_end := aEnd, m_current := aCurrent, m_shape := aShape,
      m_minDistance := aMinDistance, m_exact := aExact,
      m_refBBox := ops.defaultBox }
  match aShape with
  | some sh =>
    query_iterator.next ops m_shapes { it with m_refBBox := ops.BBox sh 0 }
  | none => some it

/-- Method `query_iterator::operator*`. -/
def query_iterator.deref {T S B : Type} (m_shapes : ShapeVec T S B)
    (it : query_iterator S B) : Option T :=
  (m_shapes[it.m_current]?).map (fun e => e.parent)

/-- Method `query_iterator::operator++`. -/
def query_iterator.inc {T S B : Type} (ops : ShapeOps T S B)
    (m_shapes : ShapeVec T S B) (it : query_iterator S B) :
    Option (query_iterator S B) :=
  query_iterator.next ops m_shapes { it with m_current := it.m_current + 1 }

/-- Method `query_iterator::operator==`. -/
def query_iterator.op_eq {S B : Type} (a b : query_iterator S B) : Bool :=
  a.m_current == b.m_current

/-- Method `query_iterator::operator!=`. -/
def query_iterator.op_ne {S B : Type} (a b : query_iterator S B) : Bool :=
  a.m_current != b.m_current

/-! ## The index -/

/-- Method `Add`. -/
def Add {T S B : Type} (ops : ShapeOps T S B) (m_shapes : ShapeVec T S B)
    (aItem : T) : ShapeVec T S B :=
  m_shapes ++ [ShapeEntry.ctor ops aItem]

/-- Search loop of `Remove`: the position where the loop stops, starting
at position `i` on the entries from there on. -/
def removeScan {T S B : Type} [DecidableEq T] (aItem : T) :
    List (ShapeEntry T S B) → Nat → Nat
  | [], i => i
  | e :: rest, i => if e.parent = aItem then i else removeScan aItem rest (i + 1)

/-- Method `Remove`. -/
def Remove {T S B : Type} [DecidableEq T] (m_shapes : ShapeVec T S B)
    (aItem : T) : ShapeVec T S B :=
  let i := removeScan aItem m_shapes 0
  if i = m_shapes.length then m_shapes
  else m_shapes.eraseIdx i

/-- Method `Size`. -/
def Size {T S B : Type} (m_shapes : ShapeVec T S B) : Nat :=
  m_shapes.length

/-- Loop of `Query` over the entries not yet examined, with the running
count `n` and the state `s` of the visitor. -/
def queryLoop {T S B σ : Type} (ops : ShapeOps T S B) (aShape : S)
    (aMinDistance : Int) (v : σ → T → Bool × σ) (aExact : Bool)
    (minDistSq : Int) (refBBox : B) :
    List (ShapeEntry T S B) → Nat → σ → Nat × σ
  | [], n, s => (n, s)
  | i :: rest, n, s =>
    if ops.SquaredDistance refBBox i.bbox ≤ minDistSq then
      if !aExact || ops.Collide i.shape (some aShape) aMinDistance then
        let r := v s i.parent
        if !r.1 then (n + 1, r.2)
        else queryLoop ops aShape aMinDistance v aExact minDistSq refBBox
          rest (n + 1) r.2
      else queryLoop ops aShape aMinDistance v aExact minDistSq refBBox
        rest n s
    else queryLoop ops aShape aMinDistance v aExact minDistSq refBBox
      rest n s

/-- Method `Query`, for a query shape that is not `NULL` (it is
dereferenced before the loop). Returns the count and the final state of
the visitor. -/
def Query {T S B σ : Type} (ops : ShapeOps T S B) (m_shapes : ShapeVec T S B)
    (aShape : S) (aMinDistance : Int) (v : σ → T → Bool × σ) (s : σ)
    (aExact : Bool) : Nat × σ :=
  let minDistSq : Int := wrapInt64 (aMinDistance * aMinDistance)
  let refBBox := ops.BBox aShape 0
  queryLoop ops aShape aMinDistance v aExact minDistSq refBBox m_shapes 0 s

/-- Method `Clear`. -/
def Clear {T S B : Type} (_m_shapes : ShapeVec T S B) : ShapeVec T S B :=
  []

/-- Method `qbegin`. -/
def qbegin {T S B : Type} (ops : ShapeOps T S B) (m_shapes : ShapeVec T S B)
    (aShape : Option S) (aMinDistance : Int) (aExact : Bool) :
    Option (query_iterator S B) :=
  query_iterator.ctor ops m_shapes 0 m_shapes.length aShape aMinDistance aExact

/-- Method `qend`. -/
def qend {T S B : Type} (ops : ShapeOps T S B) (m_shapes : ShapeVec T S B) :
    Option (query_iterator S B) :=
  query_iterator.ctor ops m_shapes m_shapes.length m_shapes.length none 0 false

/-- Method `begin`. -/
def begin {T S B : Type} (_m_shapes : ShapeVec T S B) : iterator :=
  { m_current := 0 }

/-- Method `end`. -/
def end_ {T S B : Type} (m_shapes : ShapeVec T S B) : iterator :=
  { m_current := m_shapes.length }

/-! ## Client loops and instrumentation -/

/-- Client loop `for( it = begin(); it != end(); ++it )` over the index,
collecting `*it`; `fuel` bounds the number of increments. -/
def traverse {T S B : Type} (m_shapes : ShapeVec T S B) :
    Nat → iterator → Option (List T)
  | 0, it => if iterator.op_ne it (end_ m_shapes) then none else some []
  | fuel + 1, it =>
    if iterator.op_ne it (end_ m_shapes) then
      match iterator.deref m_shapes it with
      | none => none
      | some x => (traverse m_shapes fuel (iterator.inc it)).map (fun xs => x :: xs)
    else some []

/-- Client loop `for( ; it != qend(); ++it )` collecting `*it`; `fuel`
bounds the number of increments. -/
def qtraverse {T S B : Type} (ops : ShapeOps T S B) (m_shapes : ShapeVec T S B) :
    Nat → query_iterator S B → Option (List T)
  | 0, it =>
    match qend ops m_shapes with
    | none => none
    | some e => if query_iterator.op_ne it e then none else some []
  | fuel + 1, it =>
    match qend ops m_shapes with
    | none => none
    | some e =>
      if query_iterator.op_ne it e then
        match query_iterator.deref m_shapes it with
        | none => none
        | some x =>
          match query_iterator.inc ops m_shapes it with
          | none => none
          | some it2 => (qtraverse ops m_shapes fuel it2).map (fun xs => x :: xs)
      else some []

/-- Items yielded from `qbegin( aShape, aMinDistance, aExact )` up to
`qend()`. -/
def qitems {T S B : Type} (ops : ShapeOps T S B) (m_shapes : ShapeVec T S B)
    (aShape : Option S) (aMinDistance : Int) (aExact : Bool) (fuel : Nat) :
    Option (List T) :=
  match qbegin ops m_shapes aShape aMinDistance aExact with
  | none => none
  | some it => qtraverse ops m_shapes fuel it

/-- Visitor `v` instrumented with the log of the items it is called on. -/
def logged {T σ : Type} (v : σ → T → Bool × σ) :
    σ × List T → T → Bool × (σ × List T) :=
  fun s x => ((v s.1 x).1, ((v s.1 x).2, s.2 ++ [x]))

/-- Answers of the visitor `v` when called in turn on the items `xs` from
state `s`. -/
def answers {T σ : Type} (v : σ → T → Bool × σ) : σ → List T → List Bool
  | _, [] => []
  | s, x :: xs => (v s x).1 :: answers v (v s x).2 xs

/-- State of the visitor `v` after it was called in turn on the items
`xs` from state `s`. -/
def stateAfter {T σ : Type} (v : σ → T → Bool × σ) : σ → List T → σ
  | s, [] => s
  | s, x :: xs => stateAfter v (v s x).2 xs

/-- Number of calls of the visitor `v` when it is offered the items `xs`
in turn from state `s` and the offering ends with the first answer
`false`. -/
def calls {T σ : Type} (v : σ → T → Bool × σ) : σ → List T → Nat
  | _, [] => 0
  | s, x :: xs => if !(v s x).1 then 1 else calls v (v s x).2 xs + 1

/-- Test of the loop body of `Query` on an entry: the squared box distance
test against `minDistSq`, then the collision test when `aExact` is set. -/
def queryMatch {T S B : Type} (ops : ShapeOps T S B) (aShape : S)
    (aMinDistance : Int) (aExact : Bool) (e : ShapeEntry T S B) : Bool :=
  decide (ops.SquaredDistance (ops.BBox aShape 0) e.bbox
      ≤ wrapInt64 (aMinDistance * aMinDistance))
    && (!aExact || ops.Collide e.shape (some aShape) aMinDistance)

/-- Items of the entries that pass the test of `Query`, in storage order. -/
def matched {T S B : Type} (ops : ShapeOps T S B) (m_shapes : ShapeVec T S B)
    (aShape : S) (aMinDistance : Int) (aExact : Bool) : List T :=
  (m_shapes.filter (queryMatch ops aShape aMinDistance aExact)).map
    (fun e => e.parent)

/-! ## The filter of the specification -/

/-- Filter of the specification for `Query`: the squared box distance to
the box of the query shape is at most `minDistance²` and, when `exact` is
set, the shape of the entry collides with the query shape. -/
def specMatch {T S B : Type} (ops : ShapeOps T S B) (queryShape : S)
    (minDistance : Int) (exact : Bool) (e : ShapeEntry T S B) : Bool :=
  decide (ops.SquaredDistance (ops.BBox queryShape 0) e.bbox
      ≤ minDistance * minDistance)
    && (!exact || ops.Collide e.shape (some queryShape) minDistance)

/-- Filter the query iterator applies: the box distance to the box of the
query shape is at most `minDistance` and, when `exact` is set, the shape
of the entry collides with the query shape. -/
def iterMatch {T S B : Type} (ops : ShapeOps T S B) (queryShape : S)
    (minDistance : Int) (exact : Bool) (e : ShapeEntry T S B) : Bool :=
  decide (ops.Distance (ops.BBox queryShape 0) e.bbox ≤ minDistance)
    && (!exact || ops.Collide e.shape (some queryShape) minDistance)

/-- Index obtained from the empty one by `Add( x1 ), ..., Add( xn )`. -/
def addAll {T S B : Type} (ops : ShapeOps T S B) (m_shapes : ShapeVec T S B)
    (xs : List T) : ShapeVec T S B :=
  xs.foldl (Add ops) m_shapes

/-! ## A concrete shape library -/

/-- Modelled from the spec: the axis-aligned box `BOX2I` (its header is
not part of the sources), given by its corners `[x0,y0]–[x1,y1]`. -/
structure BOX2I where
  x0 : Int
  y0 : Int
  x1 : Int
  y1 : Int
  deriving DecidableEq, Repr

/-- Separation of the intervals `[lo1, hi1]` and `[lo2, hi2]`: zero when
they overlap or touch. -/
def gap (lo1 hi1 lo2 hi2 : Int) : Int :=
  if hi2 < lo1 then lo1 - hi2
  else if hi1 < lo2 then lo2 - hi1
  else 0

/-- Modelled from the spec: `BOX2I::SquaredDistance`, the square of the
box distance, "zero when boxes overlap or touch, otherwise the minimum
Euclidean separation between their nearest edges/corners". -/
def BOX2I.SquaredDistance (a b : BOX2I) : Int :=
  gap a.x0 a.x1 b.x0 b.x1 * gap a.x0 a.x1 b.x0 b.x1
    + gap a.y0 a.y1 b.y0 b.y1 * gap a.y0 a.y1 b.y0 b.y1

/-- Largest `r ≤ k` with `r * r ≤ n`, or `0`. -/
def isqrtFrom (n : Nat) : Nat → Nat
  | 0 => 0
  | k + 1 => if (k + 1) * (k + 1) ≤ n then k + 1 else isqrtFrom n k

/-- Modelled from the spec: `BOX2I::Distance`, the box distance as an
integer scalar (the integer part of the Euclidean separation). -/
def BOX2I.Distance (a b : BOX2I) : Int :=
  Int.ofNat (isqrtFrom (a.SquaredDistance b).toNat (a.SquaredDistance b).toNat)

/-- Modelled from the spec: a shape of the external Shape capability, the
disc of centre `(cx, cy)` and radius `r`. -/
structure Disc where
  cx : Int
  cy : Int
  r : Int
  deriving DecidableEq, Repr

/-- Modelled from the spec: `BBox( clearance )` of a disc, its bounding
square grown by the clearance. -/
def Disc.BBox (d : Disc) (clearance : Int) : BOX2I :=
  { x0 := d.cx - d.r - clearance, y0 := d.cy - d.r - clearance,
    x1 := d.cx + d.r + clearance, y1 := d.cy + d.r + clearance }

/-- Modelled from the spec: `Collide( other, clearance )` of a disc, the
exact test that the two discs are at most `clearance` apart. -/
def Disc.Collide (d : Disc) (other : Option Disc) (clearance : Int) : Bool :=
  match other with
  | none => false
  | some o =>
    decide ((d.cx - o.cx) * (d.cx - o.cx) + (d.cy - o.cy) * (d.cy - o.cy)
      ≤ (d.r + o.r + clearance) * (d.r + o.r + clearance))

/-- Items of the concrete library: handles `0, 1, 2, ...` of discs owned
by the caller. Items 0, 1 and 2 have the boxes A = [0,0]–[10,10],
B = [20,20]–[30,30] and C = [5,5]–[15,15]; the box of item 3 overlaps A
while its disc is away from the disc of item 0. -/
def discOf : Nat → Disc
  | 0 => { cx := 5, cy := 5, r := 5 }
  | 1 => { cx := 25, cy := 25, r := 5 }
  | 2 => { cx := 10, cy := 10, r := 5 }
  | _ => { cx := 14, cy := 14, r := 5 }

/-- The concrete library as operations of the index. -/
def discOps : ShapeOps Nat Disc BOX2I :=
  { ShapeFunctor := discOf
    BBox := Disc.BBox
    Collide := Disc.Collide
    Distance := BOX2I.Distance
    SquaredDistance := BOX2I.SquaredDistance
    defaultBox := { x0 := 0, y0 := 0, x1 := 0, y1 := 0 } }

/-- Visitor without state that never requests a stop. -/
def keepGoing : Unit → Nat → Bool × Unit :=
  fun _ _ => (true, ())

/-- Visitor without state that requests a stop on item `x`. -/
def stopAt (x : Nat) : Unit → Nat → Bool × Unit :=
  fun _ y => (decide (y ≠ x), ())

/-- Visitor that counts its calls and requests a stop at call `k`. -/
def stopAtCall (k : Nat) : Nat → Nat → Bool × Nat :=
  fun calls _ => (decide (calls + 1 ≠ k), calls + 1)

/-! ## The iterators met by the filtered traversal -/

/-- Client loop `while( it != qend() ) ++it`: the iterators it goes
through, the first one included; `fuel` bounds the number of increments. -/
def qtrace {T S B : Type} (ops : ShapeOps T S B) (m_shapes : ShapeVec T S B) :
    Nat → query_iterator S B → Option (List (query_iterator S B))
  | 0, it =>
    match qend ops m_shapes with
    | none => none
    | some e => if query_iterator.op_ne it e then none else some [it]
  | fuel + 1, it =>
    match qend ops m_shapes with
    | none => none
    | some e =>
      if query_iterator.op_ne it e then
        match query_iterator.inc ops m_shapes it with
        | none => none
        | some it2 => (qtrace ops m_shapes fuel it2).map (fun tr => it :: tr)
      else some [it]

/-- Positions, counted from `p`, of the entries of `suf` that pass the
test `acc`, followed by the position after the last entry. -/
def matchPositions {E : Type} (acc : E → Bool) : Nat → List E → List Nat
  | p, [] => [p]
  | p, e :: rest =>
    if acc e then p :: matchPositions acc (p + 1) rest
    else matchPositions acc (p + 1) rest

/-! ## The index as a state -/

/-- Loop of `Query` as it runs on the vector: `i` walks the positions from
`begin()` and the entry under `i` is read from the vector; the value is
the result of the method together with the vector when it returns. One
iteration per unit of fuel. -/
def queryWalk {T S B σ : Type} (ops : ShapeOps T S B) (aShape : S)
    (aMinDistance : Int) (v : σ → T → Bool × σ) (aExact : Bool)
    (minDistSq : Int) (refBBox : B) :
    Nat → Nat → ShapeVec T S B → Nat → σ → Option ((Nat × σ) × ShapeVec T S B)
  | 0, _, _, _, _ => none
  | fuel + 1, i, m_shapes, n, s =>
    if i ≠ m_shapes.length then
      match m_shapes[i]? with
      | none => none
      | some e =>
        if ops.SquaredDistance refBBox e.bbox ≤ minDistSq then
          if !aExact || ops.Collide e.shape (some aShape) aMinDistance then
            if !(v s e.parent).1 then some ((n + 1, (v s e.parent).2), m_shapes)
            else queryWalk ops aShape aMinDistance v aExact minDistSq refBBox
              fuel (i + 1) m_shapes (n + 1) (v s e.parent).2
          else queryWalk ops aShape aMinDistance v aExact minDistSq refBBox
            fuel (i + 1) m_shapes n s
        else queryWalk ops aShape aMinDistance v aExact minDistSq refBBox
          fuel (i + 1) m_shapes n s
    else some ((n, s), m_shapes)

/-- Method `Query` as a method of the index object: its result and the
vector `m_shapes` when it returns. The loop reads one more entry at each
iteration, so `length + 1` iterations end it. -/
def QueryMethod {T S B σ : Type} (ops : ShapeOps T S B)
    (m_shapes : ShapeVec T S B) (aShape : S) (aMinDistance : Int)
    (v : σ → T → Bool × σ) (s : σ) (aExact : Bool) :
    Option ((Nat × σ) × ShapeVec T S B) :=
  queryWalk ops aShape aMinDistance v aExact
    (wrapInt64 (aMinDistance * aMinDistance)) (ops.BBox aShape 0)
    (m_shapes.length + 1) 0 m_shapes 0 s

/-- Call of a method of the index. The shape library is an argument of
`add` and `query`: shapes may change between two calls, and each call
sees the library as it is when the call is made. -/
inductive IndexOp (T S B σ : Type) where
  | add (w : ShapeOps T S B) (aItem : T)
  | remove (aItem : T)
  | clear
  | query (w : ShapeOps T S B) (aShape : S) (aMinDistance : Int)
      (v : σ → T → Bool × σ) (s : σ) (aExact : Bool)

/-- Vector of the index after one call. -/
def applyOp {T S B σ : Type} [DecidableEq T] (m_shapes : ShapeVec T S B) :
    IndexOp T S B σ → ShapeVec T S B
  | IndexOp.add w aItem => Add w m_shapes aItem
  | IndexOp.remove aItem => Remove m_shapes aItem
  | IndexOp.clear => Clear m_shapes
  | IndexOp.query w aShape aMinDistance v s aExact =>
    match QueryMethod w m_shapes aShape aMinDistance v s aExact with
    | some r => r.2
    | none => m_shapes

/-- Vector of the index after the calls of `history`, from the empty
index. -/
def runOps {T S B σ : Type} [DecidableEq T] (history : List (IndexOp T S B σ)) :
    ShapeVec T S B :=
  history.foldl applyOp []

/-! ## rescale (include/math/math_util.h)

A signed `int64_t` operation whose exact value does not fit in `int64_t`
is undefined: it has no result, and neither has a division by zero.
Arithmetic on `uint64_t` is modulo `2^64`; the conversions between
`int64_t` and `uint64_t` and the narrowing to `int` are two's complement.
In `rescale<int>` the 64-bit product and quotient of two `int` values
always fit; they are written with `wrapInt64`, which leaves them
unchanged. -/

/-- Smallest value of `int64_t`. -/
def INT64_MIN : Int := -9223372036854775808

/-- Largest value of `int64_t`. -/
def INT64_MAX : Int := 9223372036854775807

/-- Values of the type `int64_t`. -/
def isInt64 (x : Int) : Prop := INT64_MIN ≤ x ∧ x ≤ INT64_MAX

instance (x : Int) : Decidable (isInt64 x) := by
  unfold isInt64; exact inferInstance

/-- Result of a signed `int64_t` operation of exact value `x`: the value
when it fits in `int64_t`, nothing when the operation overflows. -/
def checkInt64 (x : Int) : Option Int :=
  if isInt64 x then some x else none

/-- Two's complement wrap of an integer to the 32-bit `int` range: the
narrowing cast `(int)`. -/
def wrapInt32 (x : Int) : Int := (x + 2 ^ 31) % 2 ^ 32 - 2 ^ 31

/-- Reduction to the range of `uint64_t`. -/
def u64 (x : Nat) : Nat := x % 2 ^ 64

/-- Conversion of an `int64_t` to `uint64_t`. -/
def toU64 (x : Int) : Nat := (x % 2 ^ 64).toNat

/-- Specialisation `rescale<int>`: the product and the quotient are
computed on `int64_t`, the quotient truncates toward zero, and the result
is narrowed to `int`. -/
def rescale_int (numerator value denominator : Int) : Option Int :=
  if denominator = 0 then none
  else some (wrapInt32 (wrapInt64
    (Int.tdiv (wrapInt64 (numerator * value)) denominator)))

/-- Loop `for( i = 63; i >= 0; i-- )` of `rescale<int64_t>` on the state
`(a1, t1)`: the first argument is the number of iterations left, the
iteration run being the one of `i` one less. -/
def rescaleLoop (a0 c : Nat) : Nat → Nat × Nat → Nat × Nat
  | 0, st => st
  | i + 1, (a1, t1) =>
    let a1 := u64 (a1 + u64 (a1 + ((a0 >>> i) &&& 1)))
    let t1 := u64 (t1 + t1)
    if c ≤ a1 then rescaleLoop a0 c i (u64 (a1 - c), u64 (t1 + 1))
    else rescaleLoop a0 c i (a1, t1)

/-- Branch `else` of `rescale<int64_t>`: the 128-bit product of `a` by
`b` plus `r`, held by `a1` (high half) and `a0` (low half), then the
division by `c` by shift and subtract. For the `int64_t` values `a`, `b`
the mask `a & 0xFFFFFFFF` is `a % 2^32` and the shift `a >> 32` is
`a / 2^32` (rounded down). -/
def rescaleWide (a b c r sign : Int) : Int :=
  let a0 : Nat := toU64 (a % 2 ^ 32)
  let a1 : Nat := toU64 (a / 2 ^ 32)
  let b0 : Nat := toU64 (b % 2 ^ 32)
  let b1 : Nat := toU64 (b / 2 ^ 32)
  let t1 : Nat := u64 (u64 (a0 * b1) + u64 (a1 * b0))
  let t1a : Nat := u64 (t1 <<< 32)
  let a0 : Nat := u64 (u64 (a0 * b0) + t1a)
  let a1 : Nat := u64 (u64 (u64 (a1 * b1) + (t1 >>> 32))
    + (if a0 < t1a then 1 else 0))
  let a0 : Nat := u64 (a0 + toU64 r)
  let a1 : Nat := u64 (a1 + (if a0 < toU64 r then 1 else 0))
  let t1 : Nat := (rescaleLoop a0 (toU64 c) 64 (a1, t1)).2
  wrapInt64 (Int.ofNat (u64 (t1 * toU64 sign)))

/-- Specialisation `rescale<int64_t>`. The operations on the `int64_t`
variables `sign`, `a`, `b`, `c`, `r` are signed, `std::abs` included:
each has a result only when its exact value fits in `int64_t`. -/
def rescale_int64 (numerator value denominator : Int) : Option Int := do
  let s0 ← checkInt64
    ((if numerator < 0 then -1 else 1) * (if denominator < 0 then -1 else 1))
  let sign ← checkInt64 (s0 * (if value < 0 then -1 else 1))
  let a ← checkInt64 |numerator|
  let b ← checkInt64 |value|
  let c ← checkInt64 |denominator|
  let r : Int := Int.tdiv c 2
  if b ≤ INT_MAX ∧ c ≤ INT_MAX then
    if c = 0 then none
    else if a ≤ INT_MAX then do
      let ab ← checkInt64 (a * b)
      let abr ← checkInt64 (ab + r)
      let q ← checkInt64 (Int.tdiv abr c)
      checkInt64 (sign * q)
    else do
      let q1 ← checkInt64 (Int.tdiv a c)
      let q1b ← checkInt64 (q1 * b)
      let m ← checkInt64 (Int.tmod a c)
      let mb ← checkInt64 (m * b)
      let mbr ← checkInt64 (mb + r)
      let q2 ← checkInt64 (Int.tdiv mbr c)
      let sum ← checkInt64 (q1b + q2)
      checkInt64 (sign * sum)
  else some (rescaleWide a b c r sign)

/-- Scaled value the documentation of `rescale<int64_t>` asks for: the
sign of the operands times `(|n|·|v| + ⌊|d|/2⌋) / |d|` rounded down, over
unbounded integers. -/
def rescaleNearest (n v d : Int) : Int :=
  Int.sign n * Int.sign v * Int.sign d * ((|n| * |v| + |d| / 2) / |d|)

/-- Value of the variable `sign` of `rescale<int64_t>`. -/
def rescaleSign (n v d : Int) : Int :=
  (if n < 0 then -1 else 1) * (if d < 0 then -1 else 1) * (if v < 0 then -1 else 1)

/-- Magnitude `(|n|·|v| + ⌊|d|/2⌋) / |d|` of the scaled value, as a
natural number. -/
def rescaleMagnitude (n v d : Int) : Nat :=
  (n.natAbs * v.natAbs + d.natAbs / 2) / d.natAbs

/-! ## Lemmas on the loops -/

theorem wrapInt64_sq_of_isInt (m : Int) (h : isInt m) :
    wrapInt64 (m * m) = m * m := by
  unfold isInt INT_MIN INT_MAX at h
  unfold wrapInt64
  have h1 : 0 ≤ m * m := mul_self_nonneg m
  have h2 : m * m ≤ 2147483648 * 2147483648 := by nlinarith
  have h3 : (m * m + 2 ^ 63) % 2 ^ 64 = m * m + 2 ^ 63 := by
    apply Int.emod_eq_of_lt
    · positivity
    · norm_num; omega
  rw [h3]; ring

/-- The test of `next` does not depend on the scan position. -/
theorem accepts_eq_iterMatch {T S B : Type} (ops : ShapeOps T S B)
    (it : query_iterator S B) (sh : S) (e : ShapeEntry T S B)
    (hs : it.m_shape = some sh) (hb : it.m_refBBox = ops.BBox sh 0) :
    query_iterator.accepts ops it e
      = iterMatch ops sh it.m_minDistance it.m_exact e := by
  unfold query_iterator.accepts iterMatch
  rw [hs, hb]
  by_cases h : ops.Distance (ops.BBox sh 0) e.bbox ≤ it.m_minDistance <;> simp [h]

/-- Skip-ahead from the position after `pre`: `nextLoop` stops on the first
entry of `suf` that passes the test, or at the end. -/
theorem nextLoop_spec {T S B : Type} (ops : ShapeOps T S B)
    (it0 : query_iterator S B) (suf : List (ShapeEntry T S B)) :
    ∀ (pre : List (ShapeEntry T S B)) (fuel : Nat),
      it0.m_end = (pre ++ suf).length → suf.length + 1 ≤ fuel →
      query_iterator.nextLoop ops (pre ++ suf) fuel
          { it0 with m_current := pre.length }
        = some { it0 with m_current := pre.length
            + (suf.takeWhile (fun e => !query_iterator.accepts ops it0 e)).length } := by
  induction suf with
  | nil =>
    intro pre fuel hend hfuel
    obtain ⟨f, rfl⟩ : ∃ f, fuel = f + 1 := ⟨fuel - 1, by simp at hfuel; omega⟩
    simp [query_iterator.nextLoop, hend]
  | cons e rest ih =>
    intro pre fuel hend hfuel
    obtain ⟨f, rfl⟩ : ∃ f, fuel = f + 1 := ⟨fuel - 1, by simp at hfuel; omega⟩
    have hne : pre.length ≠ it0.m_end := by rw [hend]; simp
    have hget : (pre ++ e :: rest)[pre.length]? = some e := by
      rw [List.getElem?_append_right (le_refl _)]; simp
    have hacc : query_iterator.accepts ops { it0 with m_current := pre.length } e
        = query_iterator.accepts ops it0 e := rfl
    by_cases ha : query_iterator.accepts ops it0 e = true
    · simp [query_iterator.nextLoop, hne, hget, hacc, ha]
    · have ih2 := ih (pre ++ [e]) f (by simpa using hend) (by simp at hfuel ⊢; omega)
      simp only [List.append_assoc, List.singleton_append, List.length_append,
        List.length_singleton] at ih2
      simp [query_iterator.nextLoop, hne, hget, hacc, ha, ih2, List.takeWhile_cons]
      omega

theorem qend_eq {T S B : Type} (ops : ShapeOps T S B) (l : ShapeVec T S B) :
    qend ops l = some
      { m_end := l.length, m_current := l.length, m_shape := none,
        m_minDistance := 0, m_exact := false, m_refBBox := ops.defaultBox } := rfl

/-- Skip-ahead from the position after `pre`, then the client loop: the
items collected are those of the entries of `suf` that pass the test. -/
theorem nextLoop_qtraverse {T S B : Type} (ops : ShapeOps T S B)
    (it0 : query_iterator S B) (suf : List (ShapeEntry T S B)) :
    ∀ (pre : List (ShapeEntry T S B)) (fuel1 fuel2 : Nat),
      it0.m_end = (pre ++ suf).length → suf.length + 1 ≤ fuel1 →
      (suf.filter (query_iterator.accepts ops it0)).length ≤ fuel2 →
      (query_iterator.nextLoop ops (pre ++ suf) fuel1
          { it0 with m_current := pre.length }).bind
        (qtraverse ops (pre ++ suf) fuel2)
        = some ((suf.filter (query_iterator.accepts ops it0)).map
            (fun e => e.parent)) := by
  induction suf with
  | nil =>
    intro pre fuel1 fuel2 hend hf1 _
    obtain ⟨f, rfl⟩ : ∃ f, fuel1 = f + 1 := ⟨fuel1 - 1, by simp at hf1; omega⟩
    cases fuel2 <;>
      simp [query_iterator.nextLoop, hend, qtraverse, qend_eq, query_iterator.op_ne]
  | cons e rest ih =>
    intro pre fuel1 fuel2 hend hf1 hf2
    obtain ⟨f, rfl⟩ : ∃ f, fuel1 = f + 1 := ⟨fuel1 - 1, by simp at hf1; omega⟩
    have hne : pre.length ≠ it0.m_end := by rw [hend]; simp
    have hlt : pre.length ≠ (pre ++ e :: rest).length := by simp
    have hget : (pre ++ e :: rest)[pre.length]? = some e := by
      rw [List.getElem?_append_right (le_refl _)]; simp
    have hacc : query_iterator.accepts ops { it0 with m_current := pre.length } e
        = query_iterator.accepts ops it0 e := rfl
    by_cases ha : query_iterator.accepts ops it0 e = true
    · have hf2b : (rest.filter (query_iterator.accepts ops it0)).length + 1 ≤ fuel2 := by
        simpa [List.filter_cons, ha] using hf2
      obtain ⟨g, rfl⟩ : ∃ g, fuel2 = g + 1 := ⟨fuel2 - 1, by omega⟩
      have ih2 := ih (pre ++ [e]) ((pre ++ e :: rest).length + 1) g
        (by simpa using hend) (by simp; omega) (by omega)
      simp only [List.append_assoc, List.singleton_append, List.length_append,
        List.length_singleton, List.length_cons, List.length_nil, Nat.zero_add] at ih2
      have h1 : query_iterator.nextLoop ops (pre ++ e :: rest) (f + 1)
          { it0 with m_current := pre.length }
          = some { it0 with m_current := pre.length } := by
        simp [query_iterator.nextLoop, hne, hget, hacc, ha]
      have hinc : query_iterator.inc ops (pre ++ e :: rest)
          { it0 with m_current := pre.length }
          = query_iterator.nextLoop ops (pre ++ e :: rest)
              (pre.length + (rest.length + 1) + 1)
              { it0 with m_current := pre.length + 1 } := by
        simp [query_iterator.inc, query_iterator.next]
      have hder : query_iterator.deref (pre ++ e :: rest)
          { it0 with m_current := pre.length } = some e.parent := by
        simp [query_iterator.deref, hget]
      rw [h1, Option.some_bind]
      simp only [qtraverse, qend_eq, query_iterator.op_ne, bne_iff_ne, ne_eq, hlt,
        not_false_eq_true, if_true, hder, hinc]
      cases hn : query_iterator.nextLoop ops (pre ++ e :: rest)
          (pre.length + (rest.length + 1) + 1)
          { it0 with m_current := pre.length + 1 } with
      | none => simp [hn] at ih2
      | some it2 =>
        rw [hn, Option.some_bind] at ih2
        simp [ih2, List.filter_cons, ha]
    · have ih2 := ih (pre ++ [e]) f fuel2 (by simpa using hend)
        (by simp at hf1 ⊢; omega) (by simpa [List.filter_cons, ha] using hf2)
      simp only [List.append_assoc, List.singleton_append, List.length_append,
        List.length_singleton] at ih2
      simp [query_iterator.nextLoop, hne, hget, hacc, ha, ih2, List.filter_cons]

/-! ## Lemmas on the visitor protocol -/

theorem calls_le_length {T σ : Type} (v : σ → T → Bool × σ) (xs : List T) :
    ∀ s, calls v s xs ≤ xs.length := by
  induction xs with
  | nil => intro s; simp [calls]
  | cons x xs ih =>
    intro s
    simp only [calls, List.length_cons]
    split
    · omega
    · have := ih (v s x).2; omega

theorem calls_of_all_true {T σ : Type} (v : σ → T → Bool × σ) (xs : List T) :
    ∀ s, (∀ b ∈ answers v s xs, b = true) → calls v s xs = xs.length := by
  induction xs with
  | nil => intro s _; simp [calls]
  | cons x xs ih =>
    intro s h
    simp only [answers, List.mem_cons, forall_eq_or_imp] at h
    simp [calls, h.1, ih _ h.2]

theorem answers_of_never_stops {T σ : Type} (v : σ → T → Bool × σ)
    (hv : ∀ s x, (v s x).1 = true) (xs : List T) :
    ∀ s, ∀ b ∈ answers v s xs, b = true := by
  induction xs with
  | nil => intro s b hb; simp [answers] at hb
  | cons x xs ih =>
    intro s b hb
    simp only [answers, List.mem_cons] at hb
    rcases hb with rfl | hb
    · exact hv s x
    · exact ih _ b hb

/-- A visitor that answers `true` on its first `k - 1` calls and `false`
on call `k` is called `k` times. -/
theorem calls_of_answers {T σ : Type} (v : σ → T → Bool × σ) (xs : List T) :
    ∀ (s : σ) (k : Nat),
      answers v s (xs.take k) = List.replicate (k - 1) true ++ [false] →
      calls v s xs = k := by
  induction xs with
  | nil =>
    intro s k h
    simp [answers] at h
  | cons x xs ih =>
    intro s k h
    cases k with
    | zero => simp [answers] at h
    | succ k =>
      cases k with
      | zero =>
        simp [answers] at h
        simp [calls, h]
      | succ k =>
        simp only [List.take_succ_cons, answers, Nat.add_sub_cancel,
          List.replicate_succ, List.cons_append, List.cons.injEq] at h
        have := ih (v s x).2 (k + 1) (by simpa using h.2)
        simp [calls, h.1, this]

theorem answers_length {T σ : Type} (v : σ → T → Bool × σ) (xs : List T) :
    ∀ s, (answers v s xs).length = xs.length := by
  induction xs with
  | nil => intro s; rfl
  | cons x xs ih => intro s; simp [answers, ih]

theorem answers_logged {T σ : Type} (v : σ → T → Bool × σ) (xs : List T) :
    ∀ (s : σ) (log : List T), answers (logged v) (s, log) xs = answers v s xs := by
  induction xs with
  | nil => intro s log; rfl
  | cons x xs ih => intro s log; simp [answers, logged, ih]

theorem calls_logged {T σ : Type} (v : σ → T → Bool × σ) (xs : List T) :
    ∀ (s : σ) (log : List T), calls (logged v) (s, log) xs = calls v s xs := by
  induction xs with
  | nil => intro s log; rfl
  | cons x xs ih => intro s log; simp [calls, logged, ih]

theorem stateAfter_logged {T σ : Type} (v : σ → T → Bool × σ) (xs : List T) :
    ∀ (s : σ) (log : List T),
      stateAfter (logged v) (s, log) xs = (stateAfter v s xs, log ++ xs) := by
  induction xs with
  | nil => intro s log; simp [stateAfter]
  | cons x xs ih => intro s log; simp [stateAfter, logged, ih]

/-- The loop of `Query` offers to the visitor the items of the entries
that pass its test, in storage order, up to the first answer `false`. -/
theorem queryLoop_eq {T S B σ : Type} (ops : ShapeOps T S B) (aShape : S)
    (aMinDistance : Int) (v : σ → T → Bool × σ) (aExact : Bool)
    (l : List (ShapeEntry T S B)) :
    ∀ (n : Nat) (s : σ),
      queryLoop ops aShape aMinDistance v aExact
          (wrapInt64 (aMinDistance * aMinDistance)) (ops.BBox aShape 0) l n s
        = (n + calls v s (matched ops l aShape aMinDistance aExact),
            stateAfter v s ((matched ops l aShape aMinDistance aExact).take
              (calls v s (matched ops l aShape aMinDistance aExact)))) := by
  induction l with
  | nil => intro n s; simp [queryLoop, matched, calls, stateAfter]
  | cons e rest ih =>
    intro n s
    unfold matched at ih ⊢
    by_cases h1 : ops.SquaredDistance (ops.BBox aShape 0) e.bbox
        ≤ wrapInt64 (aMinDistance * aMinDistance)
    · by_cases h2 : (!aExact || ops.Collide e.shape (some aShape) aMinDistance) = true
      · have hm : queryMatch ops aShape aMinDistance aExact e = true := by
          simp [queryMatch, h1, h2]
        by_cases h3 : (v s e.parent).1 = true
        · simp only [queryLoop, h1, h2, h3, if_true, ih, List.filter_cons, hm,
            List.map_cons, calls, Bool.not_true, Bool.false_eq_true, if_false]
          simp [stateAfter, List.take_succ_cons]; omega
        · simp only [Bool.not_eq_true] at h3
          simp [queryLoop, h1, h2, h3, List.filter_cons, hm, calls, stateAfter]
      · have hm : queryMatch ops aShape aMinDistance aExact e = false := by
          simp only [Bool.not_eq_true] at h2
          simp [queryMatch, h2]
        simp only [queryLoop, h1, h2, if_true, ih, List.filter_cons, hm]
        simp
    · have hm : queryMatch ops aShape aMinDistance aExact e = false := by
        simp [queryMatch, h1]
      simp only [queryLoop, h1, if_false, ih, List.filter_cons, hm]
      simp

/-- What `Query` computes: the number of calls of the visitor on the
matching items and the state of the visitor after these calls. -/
theorem Query_eq {T S B σ : Type} (ops : ShapeOps T S B)
    (m_shapes : ShapeVec T S B) (aShape : S) (aMinDistance : Int)
    (v : σ → T → Bool × σ) (s : σ) (aExact : Bool) :
    Query ops m_shapes aShape aMinDistance v s aExact
      = (calls v s (matched ops m_shapes aShape aMinDistance aExact),
          stateAfter v s ((matched ops m_shapes aShape aMinDistance aExact).take
            (calls v s (matched ops m_shapes aShape aMinDistance aExact)))) := by
  unfold Query
  simp [queryLoop_eq]

/-- With a visitor whose answers on the matching items are all `true`,
`Query` returns the number of matching items, and the log of the visitor
is the list of these items. -/
theorem Query_logged_of_all_true {T S B σ : Type} (ops : ShapeOps T S B)
    (m_shapes : ShapeVec T S B) (aShape : S) (aMinDistance : Int)
    (v : σ → T → Bool × σ) (s : σ) (log : List T) (aExact : Bool)
    (hv : ∀ b ∈ answers v s (matched ops m_shapes aShape aMinDistance aExact),
      b = true) :
    Query ops m_shapes aShape aMinDistance (logged v) (s, log) aExact
      = ((matched ops m_shapes aShape aMinDistance aExact).length,
          (stateAfter v s (matched ops m_shapes aShape aMinDistance aExact),
            log ++ matched ops m_shapes aShape aMinDistance aExact)) := by
  rw [Query_eq, calls_logged, stateAfter_logged, calls_of_all_true v _ s hv]
  simp

/-- The items yielded from `qbegin` to `qend` are those of the entries
that pass the test of the iterator, in storage order. -/
theorem qitems_eq {T S B : Type} (ops : ShapeOps T S B)
    (m_shapes : ShapeVec T S B) (aShape : S) (aMinDistance : Int)
    (aExact : Bool) (fuel : Nat)
    (hfuel : (m_shapes.filter (iterMatch ops aShape aMinDistance aExact)).length
      ≤ fuel) :
    qitems ops m_shapes (some aShape) aMinDistance aExact fuel
      = some ((m_shapes.filter (iterMatch ops aShape aMinDistance aExact)).map
          (fun e => e.parent)) := by
  have hacc : query_iterator.accepts ops
      ({ m_end := m_shapes.length, m_current := 0, m_shape := some aShape,
         m_minDistance := aMinDistance, m_exact := aExact,
         m_refBBox := ops.BBox aShape 0 } : query_iterator S B)
      = iterMatch ops aShape aMinDistance aExact := by
    funext e
    exact accepts_eq_iterMatch ops _ aShape e rfl rfl
  have h := nextLoop_qtraverse ops
    ({ m_end := m_shapes.length, m_current := 0, m_shape := some aShape,
       m_minDistance := aMinDistance, m_exact := aExact,
       m_refBBox := ops.BBox aShape 0 } : query_iterator S B)
    m_shapes [] (m_shapes.length + 1) fuel (by simp) (by omega)
    (by rw [hacc]; exact hfuel)
  rw [hacc] at h
  simp only [List.nil_append, List.length_nil] at h
  unfold qitems qbegin query_iterator.ctor query_iterator.next
  simp only
  cases hn : query_iterator.nextLoop ops m_shapes (m_shapes.length + 1)
      ({ m_end := m_shapes.length, m_current := 0, m_shape := some aShape,
         m_minDistance := aMinDistance, m_exact := aExact,
         m_refBBox := ops.BBox aShape 0 } : query_iterator S B) with
  | none => rw [hn] at h; simp at h
  | some it => rw [hn] at h; simpa using h

/-- When `Distance` is the non-negative root of `SquaredDistance`, the two
box tests agree for a threshold that is not negative. -/
theorem box_tests_agree (d sq m : Int) (hd : 0 ≤ d) (hsq : d * d = sq)
    (hm : 0 ≤ m) : d ≤ m ↔ sq ≤ m * m := by
  subst hsq
  constructor
  · intro h; nlinarith
  · intro h
    by_contra hlt
    push_neg at hlt
    nlinarith

/-- When the two box tests agree on every stored entry
(`Distance ≤ minDistance` exactly when `SquaredDistance ≤ minDistance²`),
the items yielded from `qbegin( shape, minDistance, exact )` up to
`qend()` are, in order, the items `Query( shape, minDistance, visitor,
exact )` passes to a visitor that never requests a stop: the box test is
the only point where the two traversals differ. -/
theorem qitems_eq_Query_of_box_tests_agree {T S B σ : Type} (ops : ShapeOps T S B)
    (m_shapes : ShapeVec T S B) (aShape : S) (aMinDistance : Int)
    (aExact : Bool) (v : σ → T → Bool × σ) (s : σ) (fuel : Nat)
    (hint : isInt aMinDistance)
    (hagree : ∀ e ∈ m_shapes,
      (ops.Distance (ops.BBox aShape 0) e.bbox ≤ aMinDistance
        ↔ ops.SquaredDistance (ops.BBox aShape 0) e.bbox
            ≤ aMinDistance * aMinDistance))
    (hv : ∀ s x, (v s x).1 = true)
    (hfuel : Size m_shapes ≤ fuel) :
    qitems ops m_shapes (some aShape) aMinDistance aExact fuel
      = some (Query ops m_shapes aShape aMinDistance (logged v) (s, [])
          aExact).2.2 := by
  have hfilter : m_shapes.filter (iterMatch ops aShape aMinDistance aExact)
      = m_shapes.filter (queryMatch ops aShape aMinDistance aExact) := by
    apply List.filter_congr
    intro e he
    unfold iterMatch queryMatch
    rw [wrapInt64_sq_of_isInt _ hint]
    have := hagree e he
    by_cases h : ops.Distance (ops.BBox aShape 0) e.bbox ≤ aMinDistance
    · simp [h, this.mp h]
    · have h2 : ¬ ops.SquaredDistance (ops.BBox aShape 0) e.bbox
          ≤ aMinDistance * aMinDistance := fun hc => h (this.mpr hc)
      simp [h, h2]
  rw [qitems_eq ops m_shapes aShape aMinDistance aExact fuel
    (le_trans (List.length_filter_le _ _) hfuel)]
  rw [Query_logged_of_all_true ops m_shapes aShape aMinDistance v s [] aExact
    (answers_of_never_stops v hv _ s)]
  simp [matched, hfilter]

/-! ## C1: iterator and callback -/

/-- C1 (the code departs from the claim): on the index of the items 0, 1,
2 with the query disc of item 0, the box of item 1 is at squared distance
200 and at distance 14 of the query box. With `minDistance = 14` the
iterator keeps it (`14 ≤ 14`) and yields the items 0, 1, 2, while `Query`
prunes it (`200 > 196`) and passes the items 0 and 2 to a visitor that
never requests a stop. With `minDistance = -1` the iterator yields no
item (no distance is at most `-1`), while `Query` passes the items 0 and
2 (their squared distance 0 is at most 1). -/
theorem C1_iterator_differs_from_Query :
    discOps.SquaredDistance (discOps.BBox (discOf 0) 0) (discOps.BBox (discOf 1) 0)
        = 200
      ∧ discOps.Distance (discOps.BBox (discOf 0) 0) (discOps.BBox (discOf 1) 0)
        = 14
      ∧ qitems discOps (addAll discOps [] [0, 1, 2]) (some (discOf 0)) 14 false 3
        = some [0, 1, 2]
      ∧ (Query discOps (addAll discOps [] [0, 1, 2]) (discOf 0) 14
          (logged keepGoing) ((), []) false).2.2 = [0, 2]
      ∧ qitems discOps (addAll discOps [] [0, 1, 2]) (some (discOf 0)) 14 false 3
        ≠ some (Query discOps (addAll discOps [] [0, 1, 2]) (discOf 0) 14
          (logged keepGoing) ((), []) false).2.2
      ∧ qitems discOps (addAll discOps [] [0, 1, 2]) (some (discOf 0)) (-1) false 3
        = some []
      ∧ (Query discOps (addAll discOps [] [0, 1, 2]) (discOf 0) (-1)
          (logged keepGoing) ((), []) false).2.2 = [0, 2]
      ∧ qitems discOps (addAll discOps [] [0, 1, 2]) (some (discOf 0)) (-1) false 3
        ≠ some (Query discOps (addAll discOps [] [0, 1, 2]) (discOf 0) (-1)
          (logged keepGoing) ((), []) false).2.2 := by
  decide

/-! ## C2: early exit -/

theorem matched_append {T S B : Type} (ops : ShapeOps T S B)
    (l1 l2 : ShapeVec T S B) (aShape : S) (aMinDistance : Int) (aExact : Bool) :
    matched ops (l1 ++ l2) aShape aMinDistance aExact
      = matched ops l1 aShape aMinDistance aExact
        ++ matched ops l2 aShape aMinDistance aExact := by
  simp [matched]

/-- C2: when the visitor answers `true` on its first `k - 1` calls and
`false` on call `k` (`k ≥ 1`), `Query` returns `k`, the visitor has been
called exactly on the first `k` matching items in storage order, and the
entries stored after the one of match `k` have no influence: the call
gives the same result whatever is stored in their place. -/
theorem C2_Query_early_exit {T S B σ : Type} (ops : ShapeOps T S B)
    (m_shapes : ShapeVec T S B) (aShape : S) (aMinDistance : Int)
    (aExact : Bool) (v : σ → T → Bool × σ) (s : σ) (k : Nat)
    (hk : 1 ≤ k)
    (hans : answers v s ((matched ops m_shapes aShape aMinDistance aExact).take k)
      = List.replicate (k - 1) true ++ [false]) :
    (Query ops m_shapes aShape aMinDistance v s aExact).1 = k
      ∧ Query ops m_shapes aShape aMinDistance (logged v) (s, []) aExact
        = (k, (stateAfter v s
                ((matched ops m_shapes aShape aMinDistance aExact).take k),
              (matched ops m_shapes aShape aMinDistance aExact).take k))
      ∧ ((matched ops m_shapes aShape aMinDistance aExact).take k).length = k
      ∧ ∀ pre post other : ShapeVec T S B, m_shapes = pre ++ post →
          (matched ops pre aShape aMinDistance aExact).length = k →
          Query ops (pre ++ other) aShape aMinDistance (logged v) (s, []) aExact
            = Query ops m_shapes aShape aMinDistance (logged v) (s, []) aExact := by
  have hcalls := calls_of_answers v _ s k hans
  have hlen : ((matched ops m_shapes aShape aMinDistance aExact).take k).length = k := by
    have h1 := answers_length v
      ((matched ops m_shapes aShape aMinDistance aExact).take k) s
    rw [hans] at h1
    simp only [List.length_append, List.length_replicate, List.length_singleton] at h1
    omega
  have hq : Query ops m_shapes aShape aMinDistance (logged v) (s, []) aExact
      = (k, (stateAfter v s
              ((matched ops m_shapes aShape aMinDistance aExact).take k),
            (matched ops m_shapes aShape aMinDistance aExact).take k)) := by
    rw [Query_eq, calls_logged, stateAfter_logged, hcalls]
    simp
  refine ⟨by rw [Query_eq, hcalls], hq, hlen, ?_⟩
  intro pre post other hsplit hpre
  have htake : ∀ rest : ShapeVec T S B,
      (matched ops (pre ++ rest) aShape aMinDistance aExact).take k
        = matched ops pre aShape aMinDistance aExact := by
    intro rest
    rw [matched_append, ← hpre, List.take_left]
  have hans2 : answers v s
      ((matched ops (pre ++ other) aShape aMinDistance aExact).take k)
      = List.replicate (k - 1) true ++ [false] := by
    rw [htake other, ← htake post, ← hsplit]; exact hans
  have hcalls2 := calls_of_answers v _ s k hans2
  rw [hq, Query_eq, calls_logged, stateAfter_logged, hcalls2, htake other,
    hsplit, htake post]
  simp

/-- C2 (witness): a visitor that requests a stop at its second call, on
an index with four matching entries. -/
theorem C2_Query_early_exit_witness :
    1 ≤ 2
      ∧ answers (stopAtCall 2) 0
          ((matched discOps (addAll discOps [] [0, 1, 2, 0, 2]) (discOf 0) 0
            false).take 2) = List.replicate (2 - 1) true ++ [false]
      ∧ matched discOps (addAll discOps [] [0, 1, 2, 0, 2]) (discOf 0) 0 false
        = [0, 2, 0, 2]
      ∧ Query discOps (addAll discOps [] [0, 1, 2, 0, 2]) (discOf 0) 0
          (logged (stopAtCall 2)) (0, []) false = (2, (2, [0, 2])) :=
  ⟨by decide, by decide, by decide,
    (C2_Query_early_exit discOps (addAll discOps [] [0, 1, 2, 0, 2]) (discOf 0) 0
      false (stopAtCall 2) 0 2 (by decide) (by decide)).2.1.trans (by decide)⟩

/-! ## C3: the result of Query is the filter -/

theorem addAll_eq {T S B : Type} (ops : ShapeOps T S B) (xs : List T) :
    ∀ m_shapes : ShapeVec T S B,
      addAll ops m_shapes xs = m_shapes ++ xs.map (ShapeEntry.ctor ops) := by
  induction xs with
  | nil => intro m; simp [addAll]
  | cons x xs ih =>
    intro m
    have := ih (Add ops m x)
    simp only [addAll, List.foldl_cons] at this ⊢
    rw [this]
    simp [Add]

theorem queryMatch_eq_specMatch {T S B : Type} (ops : ShapeOps T S B)
    (aShape : S) (aMinDistance : Int) (aExact : Bool) (hint : isInt aMinDistance) :
    queryMatch ops aShape aMinDistance aExact
      = specMatch ops aShape aMinDistance aExact := by
  funext e
  unfold queryMatch specMatch
  rw [wrapInt64_sq_of_isInt _ hint]

/-- C3: with a visitor that never requests a stop, `Query` passes to the
visitor exactly the items of the entries, in storage order, whose squared
box distance to the box of the query shape is at most `minDistance²` and,
when `exact` is set, whose shape collides with the query shape, and
returns their number; after `Add( x1 ), ..., Add( xn )` on an empty index
and with `exact = false`, the count is the number of added items whose
box is within `minDistance` of the query box. -/
theorem C3_Query_is_filter {T S B σ : Type} (ops : ShapeOps T S B)
    (m_shapes : ShapeVec T S B) (aShape : S) (aMinDistance : Int)
    (aExact : Bool) (v : σ → T → Bool × σ) (s : σ)
    (hint : isInt aMinDistance) (hv : ∀ s x, (v s x).1 = true) :
    Query ops m_shapes aShape aMinDistance (logged v) (s, []) aExact
        = ((m_shapes.filter (specMatch ops aShape aMinDistance aExact)).length,
            (stateAfter v s
                ((m_shapes.filter (specMatch ops aShape aMinDistance aExact)).map
                  (fun e => e.parent)),
              (m_shapes.filter (specMatch ops aShape aMinDistance aExact)).map
                (fun e => e.parent)))
      ∧ ∀ xs : List T, m_shapes = addAll ops [] xs →
          (Query ops m_shapes aShape aMinDistance v s false).1
            = (xs.filter (fun x =>
                decide (ops.SquaredDistance (ops.BBox aShape 0)
                  (ops.BBox (ops.ShapeFunctor x) 0)
                    ≤ aMinDistance * aMinDistance))).length := by
  constructor
  · rw [Query_logged_of_all_true ops m_shapes aShape aMinDistance v s [] aExact
      (answers_of_never_stops v hv _ s)]
    simp [matched, queryMatch_eq_specMatch ops aShape aMinDistance aExact hint]
  · intro xs hxs
    rw [Query_eq, calls_of_all_true v _ s (answers_of_never_stops v hv _ s)]
    rw [hxs, addAll_eq]
    simp only [matched, queryMatch_eq_specMatch ops aShape aMinDistance false hint,
      List.nil_append, List.length_map, List.filter_map, Function.comp_def]
    congr 1
    apply List.filter_congr
    intro x _
    simp [specMatch, ShapeEntry.ctor]

/-- C3 (witness): the entries with the boxes A = [0,0]–[10,10],
B = [20,20]–[30,30], C = [5,5]–[15,15], the query box [0,0]–[10,10],
`minDistance = 0`, `exact = false`: the visited list is [A, C] (items 0
and 2) and the count is 2. -/
theorem C3_Query_is_filter_witness :
    isInt 0
      ∧ (∀ (s : Unit) (x : Nat), (keepGoing s x).1 = true)
      ∧ (addAll discOps [] [0, 1, 2]).map (fun e => e.bbox)
        = [{ x0 := 0, y0 := 0, x1 := 10, y1 := 10 },
           { x0 := 20, y0 := 20, x1 := 30, y1 := 30 },
           { x0 := 5, y0 := 5, x1 := 15, y1 := 15 }]
      ∧ discOps.BBox (discOf 0) 0 = { x0 := 0, y0 := 0, x1 := 10, y1 := 10 }
      ∧ Query discOps (addAll discOps [] [0, 1, 2]) (discOf 0) 0
          (logged keepGoing) ((), []) false = (2, ((), [0, 2])) :=
  ⟨by decide, fun _ _ => rfl, by decide, by decide,
    (C3_Query_is_filter discOps (addAll discOps [] [0, 1, 2]) (discOf 0) 0
      false keepGoing () (by decide) (fun _ _ => rfl)).1.trans (by decide)⟩

/-! ## C4: exact and loose counts -/

/-- The items matched with `exact = true` form a sublist of the items
matched with `exact = false`. -/
theorem matched_exact_sublist {T S B : Type} (ops : ShapeOps T S B)
    (m_shapes : ShapeVec T S B) (aShape : S) (aMinDistance : Int) :
    List.Sublist (matched ops m_shapes aShape aMinDistance true)
      (matched ops m_shapes aShape aMinDistance false) := by
  unfold matched
  apply List.Sublist.map
  have h : m_shapes.filter (queryMatch ops aShape aMinDistance true)
      = (m_shapes.filter (queryMatch ops aShape aMinDistance false)).filter
          (queryMatch ops aShape aMinDistance true) := by
    rw [List.filter_filter]
    apply List.filter_congr
    intro e _
    simp only [queryMatch, Bool.not_true, Bool.false_or, Bool.not_false, Bool.true_or,
      Bool.and_true]
    by_cases h1 : ops.SquaredDistance (ops.BBox aShape 0) e.bbox
        ≤ wrapInt64 (aMinDistance * aMinDistance) <;> simp [h1]
  rw [h]
  exact List.filter_sublist _

/-- C4 (as stated, refuted): on the index of the items 3, 0, 2 a visitor
that requests a stop on item 3 gets the count 2 with `exact = true` and
the count 1 with `exact = false`; the box of item 3 passes the prune and
its disc does not collide. -/
theorem C4_exact_count_exceeds_loose :
    (Query discOps (addAll discOps [] [3, 0, 2]) (discOf 0) 0 (stopAt 3) ()
        true).1 = 2
      ∧ (Query discOps (addAll discOps [] [3, 0, 2]) (discOf 0) 0 (stopAt 3) ()
        false).1 = 1
      ∧ ¬ ((Query discOps (addAll discOps [] [3, 0, 2]) (discOf 0) 0 (stopAt 3) ()
          true).1
        ≤ (Query discOps (addAll discOps [] [3, 0, 2]) (discOf 0) 0 (stopAt 3) ()
          false).1) := by
  decide

/-- C4 (amended): when the visitor requests no stop during the call with
`exact = false` (in particular when it never requests a stop), the count
returned with `exact = true` is at most the count returned with
`exact = false`, for the same index, shape, distance, visitor and initial
state of the visitor. -/
theorem C4_exact_le_loose {T S B σ : Type} (ops : ShapeOps T S B)
    (m_shapes : ShapeVec T S B) (aShape : S) (aMinDistance : Int)
    (v : σ → T → Bool × σ) (s : σ)
    (hv : ∀ b ∈ answers v s (matched ops m_shapes aShape aMinDistance false),
      b = true) :
    (Query ops m_shapes aShape aMinDistance v s true).1
      ≤ (Query ops m_shapes aShape aMinDistance v s false).1 := by
  rw [Query_eq, Query_eq]
  simp only
  rw [calls_of_all_true v _ s hv]
  exact le_trans (calls_le_length v _ s)
    (matched_exact_sublist ops m_shapes aShape aMinDistance).length_le

/-- C4 (witness): the index of the items 3, 0, 2 with a visitor that
never requests a stop: the counts are 2 and 3. -/
theorem C4_exact_le_loose_witness :
    (∀ b ∈ answers keepGoing ()
        (matched discOps (addAll discOps [] [3, 0, 2]) (discOf 0) 0 false),
        b = true)
      ∧ (Query discOps (addAll discOps [] [3, 0, 2]) (discOf 0) 0 keepGoing ()
          true).1 = 2
      ∧ (Query discOps (addAll discOps [] [3, 0, 2]) (discOf 0) 0 keepGoing ()
          false).1 = 3
      ∧ (Query discOps (addAll discOps [] [3, 0, 2]) (discOf 0) 0 keepGoing ()
          true).1
        ≤ (Query discOps (addAll discOps [] [3, 0, 2]) (discOf 0) 0 keepGoing ()
          false).1 :=
  ⟨by decide, by decide, by decide,
    C4_exact_le_loose discOps (addAll discOps [] [3, 0, 2]) (discOf 0) 0
      keepGoing () (by decide)⟩

/-! ## Remove -/

theorem removeScan_append_of_absent {T S B : Type} [DecidableEq T] (x : T)
    (pre : List (ShapeEntry T S B)) :
    ∀ (suf : List (ShapeEntry T S B)) (i : Nat),
      (∀ e ∈ pre, e.parent ≠ x) →
      removeScan x (pre ++ suf) i = removeScan x suf (i + pre.length) := by
  induction pre with
  | nil => intro suf i _; simp
  | cons e pre ih =>
    intro suf i h
    have he : e.parent ≠ x := h e (by simp)
    have := ih suf (i + 1) (fun e2 h2 => h e2 (by simp [h2]))
    have hi : i + 1 + pre.length = i + (pre.length + 1) := by omega
    rw [hi] at this
    simp only [List.cons_append, removeScan, he, if_false, List.length_cons]
    exact this

/-- The method `Remove` on an index without entry of parent `x`. -/
theorem Remove_of_absent {T S B : Type} [DecidableEq T]
    (m_shapes : ShapeVec T S B) (x : T) (h : ∀ e ∈ m_shapes, e.parent ≠ x) :
    Remove m_shapes x = m_shapes := by
  have := removeScan_append_of_absent x m_shapes [] 0 h
  simp only [List.append_nil, removeScan, Nat.zero_add] at this
  simp [Remove, this]

/-- The method `Remove` deletes the first entry of parent `x`. -/
theorem Remove_of_first {T S B : Type} [DecidableEq T]
    (pre post : List (ShapeEntry T S B)) (e : ShapeEntry T S B) (x : T)
    (hpre : ∀ e2 ∈ pre, e2.parent ≠ x) (he : e.parent = x) :
    Remove (pre ++ e :: post) x = pre ++ post := by
  have h1 := removeScan_append_of_absent x pre (e :: post) 0 hpre
  simp only [removeScan, he, if_true, Nat.zero_add] at h1
  have h2 : pre.length ≠ (pre ++ e :: post).length := by simp
  simp only [Remove, h1, h2, if_false]
  rw [List.eraseIdx_append_of_length_le (le_refl _)]
  simp

/-- An index that holds `x` splits at the first entry of parent `x`. -/
theorem exists_first_entry {T S B : Type} [DecidableEq T] (x : T)
    (l : List (ShapeEntry T S B)) (h : ∃ e ∈ l, e.parent = x) :
    ∃ pre e post, l = pre ++ e :: post ∧ (∀ e2 ∈ pre, e2.parent ≠ x)
      ∧ e.parent = x := by
  induction l with
  | nil => simp at h
  | cons a l ih =>
    by_cases ha : a.parent = x
    · exact ⟨[], a, l, by simp, by simp, ha⟩
    · obtain ⟨e, he, hex⟩ := h
      have hel : e ∈ l := by
        rcases List.mem_cons.mp he with rfl | h2
        · exact absurd hex ha
        · exact h2
      obtain ⟨pre, e2, post, hl, hpre, he2⟩ := ih ⟨e, hel, hex⟩
      refine ⟨a :: pre, e2, post, by simp [hl], ?_, he2⟩
      intro e3 h3
      rcases List.mem_cons.mp h3 with rfl | h4
      · exact ha
      · exact hpre e3 h4

/-! ## C5: removing twice -/

/-- C5 (as stated, refuted): on the index built by `Add( 0 )`, `Add( 0 )`,
`Add( 2 )` the second `Remove( 0 )` deletes the second entry of item 0:
the size goes from 2 to 1. -/
theorem C5_second_Remove_deletes_duplicate :
    Size (Remove (addAll discOps [] [0, 0, 2]) 0) = 2
      ∧ Size (Remove (Remove (addAll discOps [] [0, 0, 2]) 0) 0) = 1
      ∧ Remove (Remove (addAll discOps [] [0, 0, 2]) 0) 0
        ≠ Remove (addAll discOps [] [0, 0, 2]) 0 := by
  decide

/-- C5 (amended): on an index that holds the item `x` in at most one
entry, a second `Remove( x )` right after `Remove( x )` changes nothing:
the entries and the size are those left by the first call. -/
theorem C5_Remove_twice {T S B : Type} [DecidableEq T]
    (m_shapes : ShapeVec T S B) (x : T)
    (h : (m_shapes.filter (fun e => decide (e.parent = x))).length ≤ 1) :
    Remove (Remove m_shapes x) x = Remove m_shapes x
      ∧ Size (Remove (Remove m_shapes x) x) = Size (Remove m_shapes x) := by
  have key : Remove (Remove m_shapes x) x = Remove m_shapes x := by
    by_cases hex : ∃ e ∈ m_shapes, e.parent = x
    · obtain ⟨pre, e, post, hl, hpre, he⟩ := exists_first_entry x m_shapes hex
      subst hl
      have hpost : ∀ e2 ∈ post, e2.parent ≠ x := by
        intro e2 h2 hc
        have hmem : e2 ∈ post.filter (fun e => decide (e.parent = x)) := by
          simp [List.mem_filter, h2, hc]
        have hpos := List.length_pos_of_mem hmem
        simp only [List.filter_append, List.filter_cons, he, decide_True, if_true,
          List.length_append, List.length_cons] at h
        omega
      rw [Remove_of_first pre post e x hpre he]
      apply Remove_of_absent
      intro e2 h2
      rcases List.mem_append.mp h2 with h3 | h3
      · exact hpre e2 h3
      · exact hpost e2 h3
    · have habs : ∀ e ∈ m_shapes, e.parent ≠ x := fun e he hc => hex ⟨e, he, hc⟩
      rw [Remove_of_absent m_shapes x habs, Remove_of_absent m_shapes x habs]
  exact ⟨key, by rw [key]⟩

/-- C5 (witness): the index built by `Add( 0 )`, `Add( 1 )`, `Add( 2 )`
and the item 1. -/
theorem C5_Remove_twice_witness :
    ((addAll discOps [] [0, 1, 2]).filter (fun e => decide (e.parent = 1))).length
        ≤ 1
      ∧ Remove (addAll discOps [] [0, 1, 2]) 1 = addAll discOps [] [0, 2]
      ∧ Remove (Remove (addAll discOps [] [0, 1, 2]) 1) 1
        = Remove (addAll discOps [] [0, 1, 2]) 1 :=
  ⟨by decide, by decide,
    (C5_Remove_twice (addAll discOps [] [0, 1, 2]) 1 (by decide)).1⟩

/-! ## C6: query iterator on an absent shape -/

/-- C6 (as stated, refuted): on the index of the items 0, 1, 2 the
iterator `qbegin( NULL, 0, false )` differs from `qend()` and
dereferencing it yields the item 0. -/
theorem C6_qbegin_null_is_not_qend :
    ∃ it e, qbegin discOps (addAll discOps [] [0, 1, 2]) none 0 false = some it
      ∧ qend discOps (addAll discOps [] [0, 1, 2]) = some e
      ∧ query_iterator.op_eq it e = false
      ∧ query_iterator.deref (addAll discOps [] [0, 1, 2]) it = some 0 :=
  ⟨_, _, rfl, rfl, by decide, by decide⟩

/-- C6 (amended): `qbegin( NULL, minDistance, exact )` does no skip-ahead
and stands at the begin position; it compares equal to `qend()`, and
yields no item, exactly when the index is empty. -/
theorem C6_qbegin_null {T S B : Type} (ops : ShapeOps T S B)
    (m_shapes : ShapeVec T S B) (aMinDistance : Int) (aExact : Bool) :
    ∃ it e, qbegin ops m_shapes none aMinDistance aExact = some it
      ∧ qend ops m_shapes = some e
      ∧ it.m_current = (begin m_shapes).m_current
      ∧ (query_iterator.op_eq it e = true ↔ Size m_shapes = 0)
      ∧ ∀ fuel, (qitems ops m_shapes none aMinDistance aExact fuel = some []
          ↔ Size m_shapes = 0) := by
  refine ⟨_, _, rfl, rfl, rfl, ?_, ?_⟩
  · simp only [query_iterator.op_eq, Size, beq_iff_eq]
    exact eq_comm
  · intro fuel
    cases m_shapes with
    | nil =>
      cases fuel <;>
        simp [qitems, qbegin, query_iterator.ctor, qtraverse, qend_eq,
          query_iterator.op_ne, Size]
    | cons a l =>
      cases fuel with
      | zero =>
        simp [qitems, qbegin, query_iterator.ctor, qtraverse, qend_eq,
          query_iterator.op_ne, Size]
      | succ n =>
        simp only [qitems, qbegin, query_iterator.ctor, qtraverse, qend_eq,
          query_iterator.op_ne, query_iterator.deref, Size, List.length_cons,
          List.getElem?_cons_zero, Option.map_some']
        have h0 : (0 != l.length + 1) = true := by simp
        simp only [h0, if_true]
        cases query_iterator.inc ops (a :: l)
            { m_end := l.length + 1, m_current := 0, m_refBBox := ops.defaultBox,
              m_exact := aExact, m_shape := none, m_minDistance := aMinDistance } with
        | none => simp
        | some it2 =>
          cases qtraverse ops (a :: l) n it2 <;> simp

/-! ## C7: Remove deletes the first match -/

/-- C7: when `x` is the parent of some entry, `Remove( x )` deletes the
first entry of parent `x` and nothing else: the entries before it and
the entries after it (later entries of parent `x` included) are kept in
their order, and the size goes down by exactly 1. -/
theorem C7_Remove_deletes_first_match {T S B : Type} [DecidableEq T]
    (m_shapes : ShapeVec T S B) (x : T) (h : ∃ e ∈ m_shapes, e.parent = x) :
    ∃ pre e post, m_shapes = pre ++ e :: post
      ∧ (∀ e2 ∈ pre, e2.parent ≠ x) ∧ e.parent = x
      ∧ Remove m_shapes x = pre ++ post
      ∧ Size (Remove m_shapes x) + 1 = Size m_shapes := by
  obtain ⟨pre, e, post, hl, hpre, he⟩ := exists_first_entry x m_shapes h
  refine ⟨pre, e, post, hl, hpre, he, ?_, ?_⟩
  · rw [hl]; exact Remove_of_first pre post e x hpre he
  · rw [hl, Remove_of_first pre post e x hpre he]
    simp [Size]; omega

/-- C7 (witness): `Remove( 0 )` on the index built by `Add( 1 )`,
`Add( 0 )`, `Add( 2 )`, `Add( 0 )` leaves the entries of 1, 2, 0. -/
theorem C7_Remove_deletes_first_match_witness :
    (∃ e ∈ addAll discOps [] [1, 0, 2, 0], e.parent = 0)
      ∧ Remove (addAll discOps [] [1, 0, 2, 0]) 0 = addAll discOps [] [1, 2, 0]
      ∧ ∃ pre e post, addAll discOps [] [1, 0, 2, 0] = pre ++ e :: post
          ∧ (∀ e2 ∈ pre, e2.parent ≠ 0) ∧ e.parent = 0
          ∧ Remove (addAll discOps [] [1, 0, 2, 0]) 0 = pre ++ post
          ∧ Size (Remove (addAll discOps [] [1, 0, 2, 0]) 0) + 1
            = Size (addAll discOps [] [1, 0, 2, 0]) :=
  ⟨by decide, by decide,
    C7_Remove_deletes_first_match (addAll discOps [] [1, 0, 2, 0]) 0 (by decide)⟩

/-! ## C8: Remove of an absent item -/

/-- C8: when `x` is the parent of no stored entry, `Remove( x )` returns
and leaves the entries unchanged, hence the size, the plain traversal and
the result of every `Query`. -/
theorem C8_Remove_absent_is_noop {T S B : Type} (σ : Type) [DecidableEq T]
    (ops : ShapeOps T S B) (m_shapes : ShapeVec T S B) (x : T)
    (h : ∀ e ∈ m_shapes, e.parent ≠ x) :
    Remove m_shapes x = m_shapes
      ∧ Size (Remove m_shapes x) = Size m_shapes
      ∧ (∀ fuel, traverse (Remove m_shapes x) fuel (begin (Remove m_shapes x))
          = traverse m_shapes fuel (begin m_shapes))
      ∧ ∀ (aShape : S) (aMinDistance : Int) (v : σ → T → Bool × σ) (s : σ)
          (aExact : Bool),
          Query ops (Remove m_shapes x) aShape aMinDistance v s aExact
            = Query ops m_shapes aShape aMinDistance v s aExact := by
  have key := Remove_of_absent m_shapes x h
  rw [key]
  exact ⟨rfl, rfl, fun _ => rfl, fun _ _ _ _ _ => rfl⟩

/-- C8 (witness): `Remove( 7 )` on the index built by `Add( 0 )`,
`Add( 1 )`, `Add( 2 )`. -/
theorem C8_Remove_absent_is_noop_witness :
    (∀ e ∈ addAll discOps [] [0, 1, 2], e.parent ≠ 7)
      ∧ Remove (addAll discOps [] [0, 1, 2]) 7 = addAll discOps [] [0, 1, 2] :=
  ⟨by decide,
    (C8_Remove_absent_is_noop Unit discOps (addAll discOps [] [0, 1, 2]) 7
      (by decide)).1⟩

/-! ## C9: Clear -/

/-- C9: after `Clear()` the size is 0, `begin()` equals `end()`, and
`Query` returns 0 without calling the visitor (its state is unchanged and
its log is empty), whatever the query shape, the distance, the flag and
the visitor. -/
theorem C9_Clear_resets {T S B σ : Type} (ops : ShapeOps T S B)
    (m_shapes : ShapeVec T S B) (aShape : S) (aMinDistance : Int)
    (v : σ → T → Bool × σ) (s : σ) (aExact : Bool) :
    Size (Clear m_shapes) = 0
      ∧ iterator.op_eq (begin (Clear m_shapes)) (end_ (Clear m_shapes)) = true
      ∧ iterator.op_ne (begin (Clear m_shapes)) (end_ (Clear m_shapes)) = false
      ∧ traverse (Clear m_shapes) 0 (begin (Clear m_shapes)) = some []
      ∧ Query ops (Clear m_shapes) aShape aMinDistance v s aExact = (0, s)
      ∧ Query ops (Clear m_shapes) aShape aMinDistance (logged v) (s, []) aExact
        = (0, (s, [])) := by
  refine ⟨rfl, rfl, rfl, rfl, rfl, rfl⟩

/-! ## C10: Add and the plain traversal -/

/-- The plain traversal from the position after `pre` collects the items
of the entries stored from there on. -/
theorem traverse_from {T S B : Type} (suf : List (ShapeEntry T S B)) :
    ∀ (pre : List (ShapeEntry T S B)) (fuel : Nat), suf.length ≤ fuel →
      traverse (pre ++ suf) fuel { m_current := pre.length }
        = some (suf.map (fun e => e.parent)) := by
  induction suf with
  | nil =>
    intro pre fuel _
    cases fuel <;> simp [traverse, iterator.op_ne, end_]
  | cons e rest ih =>
    intro pre fuel hfuel
    obtain ⟨f, rfl⟩ : ∃ f, fuel = f + 1 := ⟨fuel - 1, by simp at hfuel; omega⟩
    have hget : (pre ++ e :: rest)[pre.length]? = some e := by
      rw [List.getElem?_append_right (le_refl _)]; simp
    have ih2 := ih (pre ++ [e]) f (by simp at hfuel; omega)
    simp only [List.append_assoc, List.singleton_append, List.length_append,
      List.length_singleton] at ih2
    simp [traverse, iterator.op_ne, end_, iterator.deref, hget, iterator.inc, ih2]

/-- The plain traversal of an index yields the stored items in storage
order. -/
theorem traverse_begin {T S B : Type} (m_shapes : ShapeVec T S B) (extra : Nat) :
    traverse m_shapes (Size m_shapes + extra) (begin m_shapes)
      = some (m_shapes.map (fun e => e.parent)) := by
  have := traverse_from m_shapes [] (Size m_shapes + extra) (by simp [Size])
  simpa [begin] using this

/-- C10: `Add( x )` raises the size by exactly 1 and stores the entry of
`x` after the existing entries, which are kept, whether or not `x` is
already stored; after `Add( x1 ), ..., Add( xn )` on an empty index the
size is `n` and the traversal from `begin()` to `end()` yields
`x1, ..., xn` in that order. -/
theorem C10_Add_appends {T S B : Type} (ops : ShapeOps T S B)
    (m_shapes : ShapeVec T S B) (x : T) (xs : List T) (extra : Nat) :
    Size (Add ops m_shapes x) = Size m_shapes + 1
      ∧ (Add ops m_shapes x).take (Size m_shapes) = m_shapes
      ∧ (Add ops m_shapes x)[Size m_shapes]? = some (ShapeEntry.ctor ops x)
      ∧ (ShapeEntry.ctor ops x).parent = x
      ∧ traverse (Add ops m_shapes x) (Size m_shapes + 1 + extra)
          (begin (Add ops m_shapes x))
        = some (m_shapes.map (fun e => e.parent) ++ [x])
      ∧ Size (addAll ops [] xs) = xs.length
      ∧ traverse (addAll ops [] xs) (xs.length + extra) (begin (addAll ops [] xs))
        = some xs := by
  have hsize : Size (addAll ops [] xs) = xs.length := by
    simp [addAll_eq, Size]
  have hparents : (addAll ops [] xs).map (fun e => e.parent) = xs := by
    rw [addAll_eq]
    simp [ShapeEntry.ctor, Function.comp_def]
  refine ⟨by simp [Add, Size], by simp [Add, Size], ?_, rfl, ?_, hsize, ?_⟩
  · simp only [Add, Size]
    rw [List.getElem?_append_right (le_refl _)]
    simp
  · have h := traverse_begin (Add ops m_shapes x) extra
    have hs : Size (Add ops m_shapes x) = Size m_shapes + 1 := by simp [Add, Size]
    rw [hs] at h
    rw [h]
    simp [Add, ShapeEntry.ctor]
  · have h := traverse_begin (addAll ops [] xs) extra
    rw [hsize, hparents] at h
    exact h

/-! ## Lemmas on the filtered traversal -/

theorem matchPositions_length {E : Type} (acc : E → Bool) (suf : List E) :
    ∀ p, (matchPositions acc p suf).length = (suf.filter acc).length + 1 := by
  induction suf with
  | nil => intro p; simp [matchPositions]
  | cons e rest ih =>
    intro p
    by_cases h : acc e = true
    · simp [matchPositions, h, ih, List.filter_cons]
    · simp [matchPositions, h, ih, List.filter_cons]

theorem matchPositions_mem {E : Type} (acc : E → Bool) (suf : List E) :
    ∀ p q, q ∈ matchPositions acc p suf →
      p ≤ q ∧ q ≤ p + suf.length
        ∧ (q = p + suf.length ∨ ∃ e, suf[q - p]? = some e ∧ acc e = true) := by
  induction suf with
  | nil =>
    intro p q h
    simp [matchPositions] at h
    subst h
    simp
  | cons e rest ih =>
    intro p q h
    have step : q ∈ matchPositions acc (p + 1) rest →
        p ≤ q ∧ q ≤ p + (e :: rest).length
          ∧ (q = p + (e :: rest).length
              ∨ ∃ e2, (e :: rest)[q - p]? = some e2 ∧ acc e2 = true) := by
      intro h2
      obtain ⟨h3, h4, h5⟩ := ih (p + 1) q h2
      refine ⟨by omega, by simp; omega, ?_⟩
      rcases h5 with h5 | ⟨e2, h6, h7⟩
      · left; simp; omega
      · right
        refine ⟨e2, ?_, h7⟩
        have hq : q - p = (q - (p + 1)) + 1 := by omega
        rw [hq, List.getElem?_cons_succ]
        exact h6
    by_cases ha : acc e = true
    · simp only [matchPositions, ha, if_true, List.mem_cons] at h
      rcases h with rfl | h
      · refine ⟨le_refl _, by omega, Or.inr ⟨e, by simp, ha⟩⟩
      · exact step h
    · simp only [matchPositions, ha] at h
      exact step h

theorem matchPositions_complete {E : Type} (acc : E → Bool) (suf : List E) :
    ∀ p j e, suf[j]? = some e → acc e = true →
      p + j ∈ matchPositions acc p suf := by
  induction suf with
  | nil => intro p j e h; simp at h
  | cons a rest ih =>
    intro p j e h ha
    cases j with
    | zero =>
      simp only [List.getElem?_cons_zero, Option.some.injEq] at h
      subst h
      simp [matchPositions, ha]
    | succ j =>
      rw [List.getElem?_cons_succ] at h
      have h2 := ih (p + 1) j e h ha
      have hp : p + (j + 1) = p + 1 + j := by omega
      rw [hp]
      by_cases hacc : acc a = true
      · simp only [matchPositions, hacc, if_true, List.mem_cons]
        exact Or.inr h2
      · simp only [matchPositions, hacc]
        exact h2

theorem matchPositions_pairwise {E : Type} (acc : E → Bool) (suf : List E) :
    ∀ p, List.Pairwise (fun x y => x < y) (matchPositions acc p suf) := by
  induction suf with
  | nil => intro p; simp [matchPositions]
  | cons e rest ih =>
    intro p
    by_cases ha : acc e = true
    · simp only [matchPositions, ha, if_true, List.pairwise_cons]
      refine ⟨?_, ih (p + 1)⟩
      intro q hq
      have := (matchPositions_mem acc rest (p + 1) q hq).1
      omega
    · simp only [matchPositions, ha]
      exact ih (p + 1)

theorem matchPositions_getLast {E : Type} (acc : E → Bool) (suf : List E) :
    ∀ p, (matchPositions acc p suf).getLast? = some (p + suf.length) := by
  induction suf with
  | nil => intro p; simp [matchPositions]
  | cons e rest ih =>
    intro p
    have h := ih (p + 1)
    have hp : p + 1 + rest.length = p + (e :: rest).length := by simp; omega
    rw [hp] at h
    by_cases ha : acc e = true
    · simp only [matchPositions, ha, if_true]
      cases hm : matchPositions acc (p + 1) rest with
      | nil =>
        have := matchPositions_length acc rest (p + 1)
        rw [hm] at this
        simp at this
      | cons x xs =>
        rw [hm] at h
        rw [List.getLast?_cons_cons]
        exact h
    · simp only [matchPositions, ha]
      exact h

/-- Skip-ahead from the position after `pre`, then the client loop: the
iterators met stand on the entries of `suf` that pass the test, then on
the end position. -/
theorem nextLoop_qtrace {T S B : Type} (ops : ShapeOps T S B)
    (it0 : query_iterator S B) (suf : List (ShapeEntry T S B)) :
    ∀ (pre : List (ShapeEntry T S B)) (fuel1 fuel2 : Nat),
      it0.m_end = (pre ++ suf).length → suf.length + 1 ≤ fuel1 →
      (suf.filter (query_iterator.accepts ops it0)).length ≤ fuel2 →
      (query_iterator.nextLoop ops (pre ++ suf) fuel1
          { it0 with m_current := pre.length }).bind
        (qtrace ops (pre ++ suf) fuel2)
        = some ((matchPositions (query_iterator.accepts ops it0) pre.length suf).map
            (fun q => { it0 with m_current := q })) := by
  induction suf with
  | nil =>
    intro pre fuel1 fuel2 hend hf1 _
    obtain ⟨f, rfl⟩ : ∃ f, fuel1 = f + 1 := ⟨fuel1 - 1, by simp at hf1; omega⟩
    cases fuel2 <;>
      simp [query_iterator.nextLoop, hend, qtrace, qend_eq, query_iterator.op_ne,
        matchPositions]
  | cons e rest ih =>
    intro pre fuel1 fuel2 hend hf1 hf2
    obtain ⟨f, rfl⟩ : ∃ f, fuel1 = f + 1 := ⟨fuel1 - 1, by simp at hf1; omega⟩
    have hne : pre.length ≠ it0.m_end := by rw [hend]; simp
    have hlt : pre.length ≠ (pre ++ e :: rest).length := by simp
    have hget : (pre ++ e :: rest)[pre.length]? = some e := by
      rw [List.getElem?_append_right (le_refl _)]; simp
    have hacc : query_iterator.accepts ops { it0 with m_current := pre.length } e
        = query_iterator.accepts ops it0 e := rfl
    by_cases ha : query_iterator.accepts ops it0 e = true
    · have hf2b : (rest.filter (query_iterator.accepts ops it0)).length + 1 ≤ fuel2 := by
        simpa [List.filter_cons, ha] using hf2
      obtain ⟨g, rfl⟩ : ∃ g, fuel2 = g + 1 := ⟨fuel2 - 1, by omega⟩
      have ih2 := ih (pre ++ [e]) ((pre ++ e :: rest).length + 1) g
        (by simpa using hend) (by simp; omega) (by omega)
      simp only [List.append_assoc, List.singleton_append, List.length_append,
        List.length_singleton, List.length_cons, List.length_nil, Nat.zero_add] at ih2
      have h1 : query_iterator.nextLoop ops (pre ++ e :: rest) (f + 1)
          { it0 with m_current := pre.length }
          = some { it0 with m_current := pre.length } := by
        simp [query_iterator.nextLoop, hne, hget, hacc, ha]
      have hinc : query_iterator.inc ops (pre ++ e :: rest)
          { it0 with m_current := pre.length }
          = query_iterator.nextLoop ops (pre ++ e :: rest)
              (pre.length + (rest.length + 1) + 1)
              { it0 with m_current := pre.length + 1 } := by
        simp [query_iterator.inc, query_iterator.next]
      rw [h1, Option.some_bind]
      simp only [qtrace, qend_eq, query_iterator.op_ne, bne_iff_ne, ne_eq, hlt,
        not_false_eq_true, if_true, hinc]
      cases hn : query_iterator.nextLoop ops (pre ++ e :: rest)
          (pre.length + (rest.length + 1) + 1)
          { it0 with m_current := pre.length + 1 } with
      | none => simp [hn] at ih2
      | some it2 =>
        rw [hn, Option.some_bind] at ih2
        simp [ih2, matchPositions, ha]
    · have ih2 := ih (pre ++ [e]) f fuel2 (by simpa using hend)
        (by simp at hf1 ⊢; omega) (by simpa [List.filter_cons, ha] using hf2)
      simp only [List.append_assoc, List.singleton_append, List.length_append,
        List.length_singleton] at ih2
      simp [query_iterator.nextLoop, hne, hget, hacc, ha, ih2, matchPositions]

/-- The iterators met from `qbegin` to `qend`: they stand on the
positions of the entries that pass the test of the iterator, then on the
end position. -/
theorem qbegin_qtrace {T S B : Type} (ops : ShapeOps T S B)
    (m_shapes : ShapeVec T S B) (aShape : S) (aMinDistance : Int)
    (aExact : Bool) (fuel : Nat)
    (hfuel : (m_shapes.filter (iterMatch ops aShape aMinDistance aExact)).length
      ≤ fuel) :
    (qbegin ops m_shapes (some aShape) aMinDistance aExact).bind
        (qtrace ops m_shapes fuel)
      = some ((matchPositions (iterMatch ops aShape aMinDistance aExact) 0
            m_shapes).map
          (fun q => query_iterator.mk m_shapes.length q (ops.BBox aShape 0)
            aExact (some aShape) aMinDistance)) := by
  have hacc : query_iterator.accepts ops
      ({ m_end := m_shapes.length, m_current := 0, m_shape := some aShape,
         m_minDistance := aMinDistance, m_exact := aExact,
         m_refBBox := ops.BBox aShape 0 } : query_iterator S B)
      = iterMatch ops aShape aMinDistance aExact := by
    funext e
    exact accepts_eq_iterMatch ops _ aShape e rfl rfl
  have h := nextLoop_qtrace ops
    ({ m_end := m_shapes.length, m_current := 0, m_shape := some aShape,
       m_minDistance := aMinDistance, m_exact := aExact,
       m_refBBox := ops.BBox aShape 0 } : query_iterator S B)
    m_shapes [] (m_shapes.length + 1) fuel (by simp) (by omega)
    (by rw [hacc]; exact hfuel)
  rw [hacc] at h
  simp only [List.nil_append, List.length_nil] at h
  exact h

/-! ## C11: the filtered traversal reaches the end sentinel -/

/-- C11: from `qbegin( shape, minDistance, exact )` the loop
`while( it != qend() ) ++it` ends within `Size()` increments, no iterator
it goes through stands past the end position, and the last one equals
`qend()`; an iterator equals `qend()` exactly when its position is the end
position, although `qend()` carries a null shape, the distance 0 and
`exact = false`. -/
theorem C11_filtered_traversal_reaches_qend {T S B : Type}
    (ops : ShapeOps T S B) (m_shapes : ShapeVec T S B) (aShape : S)
    (aMinDistance : Int) (aExact : Bool) :
    ∃ tr e last,
      (qbegin ops m_shapes (some aShape) aMinDistance aExact).bind
          (qtrace ops m_shapes (Size m_shapes)) = some tr
        ∧ qend ops m_shapes = some e
        ∧ tr.length ≤ Size m_shapes + 1
        ∧ (∀ it ∈ tr, it.m_current ≤ (end_ m_shapes).m_current)
        ∧ tr.getLast? = some last
        ∧ query_iterator.op_eq last e = true
        ∧ (∀ it : query_iterator S B,
            query_iterator.op_eq it e = true
              ↔ it.m_current = (end_ m_shapes).m_current)
        ∧ e.m_shape = none ∧ e.m_minDistance = 0 ∧ e.m_exact = false := by
  have hfuel : (m_shapes.filter (iterMatch ops aShape aMinDistance aExact)).length
      ≤ Size m_shapes := List.length_filter_le _ _
  refine ⟨_, _, query_iterator.mk m_shapes.length m_shapes.length
      (ops.BBox aShape 0) aExact (some aShape) aMinDistance,
    qbegin_qtrace ops m_shapes aShape aMinDistance aExact (Size m_shapes) hfuel,
    qend_eq ops m_shapes, ?_, ?_, ?_, ?_, ?_, rfl, rfl, rfl⟩
  · rw [List.length_map, matchPositions_length]
    simp only [Size] at hfuel ⊢
    omega
  · intro it hit
    obtain ⟨q, hq, rfl⟩ := List.mem_map.mp hit
    have := (matchPositions_mem _ m_shapes 0 q hq).2.1
    simpa [end_] using this
  · rw [List.getLast?_map, matchPositions_getLast]
    simp
  · simp [query_iterator.op_eq]
  · intro it
    simp [query_iterator.op_eq, end_]

/-! ## C14: the query iterator yields its filter -/

/-- C14: every iterator gone through from `qbegin( shape, minDistance,
exact )` to `qend()` stands either on the end position or on an entry
whose box is within `minDistance` of the box of the query shape
(`Distance ≤ minDistance`) and, when `exact` is set, whose shape collides
with the query shape, and dereferences to the parent of that entry; every
entry no iterator stands on fails that test; the positions increase; and
the items yielded are those of the entries that pass the test, in storage
order. -/
theorem C14_query_iterator_yields_filter {T S B : Type}
    (ops : ShapeOps T S B) (m_shapes : ShapeVec T S B) (aShape : S)
    (aMinDistance : Int) (aExact : Bool) :
    ∃ tr,
      (qbegin ops m_shapes (some aShape) aMinDistance aExact).bind
          (qtrace ops m_shapes (Size m_shapes)) = some tr
        ∧ (∀ it ∈ tr, it.m_current = Size m_shapes
            ∨ ∃ e, m_shapes[it.m_current]? = some e
              ∧ iterMatch ops aShape aMinDistance aExact e = true
              ∧ query_iterator.deref m_shapes it = some e.parent)
        ∧ (∀ j e, m_shapes[j]? = some e → (∀ it ∈ tr, it.m_current ≠ j) →
            iterMatch ops aShape aMinDistance aExact e = false)
        ∧ List.Pairwise (fun a b => a.m_current < b.m_current) tr
        ∧ qitems ops m_shapes (some aShape) aMinDistance aExact (Size m_shapes)
          = some ((m_shapes.filter
              (iterMatch ops aShape aMinDistance aExact)).map
                (fun e => e.parent)) := by
  have hfuel : (m_shapes.filter (iterMatch ops aShape aMinDistance aExact)).length
      ≤ Size m_shapes := List.length_filter_le _ _
  refine ⟨_,
    qbegin_qtrace ops m_shapes aShape aMinDistance aExact (Size m_shapes) hfuel,
    ?_, ?_, ?_,
    qitems_eq ops m_shapes aShape aMinDistance aExact (Size m_shapes) hfuel⟩
  · intro it hit
    obtain ⟨q, hq, rfl⟩ := List.mem_map.mp hit
    obtain ⟨_, _, h3⟩ := matchPositions_mem _ m_shapes 0 q hq
    rcases h3 with h3 | ⟨e, he, hacc⟩
    · left; simpa [Size] using h3
    · right
      simp only [Nat.sub_zero] at he
      exact ⟨e, he, hacc, by simp [query_iterator.deref, he]⟩
  · intro j e he hnot
    by_contra hacc
    simp only [Bool.not_eq_false] at hacc
    have hmem := matchPositions_complete (iterMatch ops aShape aMinDistance aExact)
      m_shapes 0 j e he hacc
    rw [Nat.zero_add] at hmem
    exact hnot _ (List.mem_map.mpr ⟨j, hmem, rfl⟩) rfl
  · rw [List.pairwise_map]
    exact matchPositions_pairwise _ m_shapes 0

/-! ## C15: exact matches among loose matches -/

/-- C15: with a visitor that never requests a stop, the items visited by
`Query` with `exact = true` form a sublist (same relative order) of the
items visited with `exact = false`; both lists are the parents of
sublists of the stored entries, and an entry whose box passes the prune
and whose shape fails `Collide( queryShape, minDistance )` is among the
entries visited with `exact = false` and not among those visited with
`exact = true`: its item is in the loose list, and it is not in the exact
list when the entries of that item all hold its shape. -/
theorem C15_exact_sublist_of_loose {T S B σ : Type} (ops : ShapeOps T S B)
    (m_shapes : ShapeVec T S B) (aShape : S) (aMinDistance : Int)
    (v : σ → T → Bool × σ) (s : σ) (hv : ∀ s x, (v s x).1 = true) :
    ∃ looseEntries exactEntries : List (ShapeEntry T S B),
      (Query ops m_shapes aShape aMinDistance (logged v) (s, []) false).2.2
          = looseEntries.map (fun e => e.parent)
        ∧ (Query ops m_shapes aShape aMinDistance (logged v) (s, []) true).2.2
          = exactEntries.map (fun e => e.parent)
        ∧ List.Sublist exactEntries looseEntries
        ∧ List.Sublist looseEntries m_shapes
        ∧ List.Sublist
            (Query ops m_shapes aShape aMinDistance (logged v) (s, []) true).2.2
            (Query ops m_shapes aShape aMinDistance (logged v) (s, []) false).2.2
        ∧ ∀ e ∈ m_shapes,
            ops.SquaredDistance (ops.BBox aShape 0) e.bbox
              ≤ wrapInt64 (aMinDistance * aMinDistance) →
            ops.Collide e.shape (some aShape) aMinDistance = false →
            e ∈ looseEntries ∧ e ∉ exactEntries
              ∧ e.parent ∈ (Query ops m_shapes aShape aMinDistance (logged v)
                  (s, []) false).2.2
              ∧ ((∀ e2 ∈ m_shapes, e2.parent = e.parent → e2.shape = e.shape) →
                  e.parent ∉ (Query ops m_shapes aShape aMinDistance (logged v)
                    (s, []) true).2.2) := by
  have hl := Query_logged_of_all_true ops m_shapes aShape aMinDistance v s []
    false (answers_of_never_stops v hv _ s)
  have he := Query_logged_of_all_true ops m_shapes aShape aMinDistance v s []
    true (answers_of_never_stops v hv _ s)
  have hsub : List.Sublist
      (m_shapes.filter (queryMatch ops aShape aMinDistance true))
      (m_shapes.filter (queryMatch ops aShape aMinDistance false)) := by
    have h : m_shapes.filter (queryMatch ops aShape aMinDistance true)
        = (m_shapes.filter (queryMatch ops aShape aMinDistance false)).filter
            (queryMatch ops aShape aMinDistance true) := by
      rw [List.filter_filter]
      apply List.filter_congr
      intro e _
      simp only [queryMatch, Bool.not_true, Bool.false_or, Bool.not_false,
        Bool.true_or, Bool.and_true]
      by_cases h1 : ops.SquaredDistance (ops.BBox aShape 0) e.bbox
          ≤ wrapInt64 (aMinDistance * aMinDistance) <;> simp [h1]
    rw [h]
    exact List.filter_sublist _
  refine ⟨m_shapes.filter (queryMatch ops aShape aMinDistance false),
    m_shapes.filter (queryMatch ops aShape aMinDistance true),
    by rw [hl]; simp [matched], by rw [he]; simp [matched], hsub,
    List.filter_sublist _, ?_, ?_⟩
  · rw [hl, he]
    simpa using matched_exact_sublist ops m_shapes aShape aMinDistance
  · intro e hmem hprune hcol
    have hloose : e ∈ m_shapes.filter (queryMatch ops aShape aMinDistance false) := by
      simp [List.mem_filter, hmem, queryMatch, hprune]
    have hexact : e ∉ m_shapes.filter (queryMatch ops aShape aMinDistance true) := by
      simp [List.mem_filter, queryMatch, hcol]
    refine ⟨hloose, hexact, ?_, ?_⟩
    · rw [hl]
      simp only [List.nil_append, matched]
      exact List.mem_map.mpr ⟨e, hloose, rfl⟩
    · intro hsame hin
      rw [he] at hin
      simp only [List.nil_append, matched] at hin
      obtain ⟨e2, h2, hp⟩ := List.mem_map.mp hin
      have h3 := List.mem_filter.mp h2
      have hshape := hsame e2 h3.1 hp
      have h4 := h3.2
      simp only [queryMatch, Bool.not_true, Bool.false_or, Bool.and_eq_true,
        decide_eq_true_eq] at h4
      rw [hshape, hcol] at h4
      exact absurd h4.2 (by simp)

/-- C15 (witness): the index of the items 3, 0, 2 and the query disc of
item 0: the box of item 3 passes the prune and its disc does not collide;
the loose list is [3, 0, 2] and the exact list is [0, 2]. -/
theorem C15_exact_sublist_of_loose_witness :
    (∀ (s : Unit) (x : Nat), (keepGoing s x).1 = true)
      ∧ (Query discOps (addAll discOps [] [3, 0, 2]) (discOf 0) 0
          (logged keepGoing) ((), []) false).2.2 = [3, 0, 2]
      ∧ (Query discOps (addAll discOps [] [3, 0, 2]) (discOf 0) 0
          (logged keepGoing) ((), []) true).2.2 = [0, 2]
      ∧ List.Sublist
          (Query discOps (addAll discOps [] [3, 0, 2]) (discOf 0) 0
            (logged keepGoing) ((), []) true).2.2
          (Query discOps (addAll discOps [] [3, 0, 2]) (discOf 0) 0
            (logged keepGoing) ((), []) false).2.2 :=
  ⟨fun _ _ => rfl, by decide, by decide,
    (C15_exact_sublist_of_loose discOps (addAll discOps [] [3, 0, 2]) (discOf 0) 0
      keepGoing () (fun _ _ => rfl)).elim
      (fun _ h => h.elim (fun _ h2 => h2.2.2.2.2.1))⟩

/-! ## Lemmas on the index as a state -/

/-- The loop of `Query` run on the vector from the position after `pre`
computes what the loop over the entries computes, and returns the vector
it was given. -/
theorem queryWalk_eq {T S B σ : Type} (ops : ShapeOps T S B) (aShape : S)
    (aMinDistance : Int) (v : σ → T → Bool × σ) (aExact : Bool)
    (minDistSq : Int) (refBBox : B) (suf : List (ShapeEntry T S B)) :
    ∀ (pre : List (ShapeEntry T S B)) (fuel n : Nat) (s : σ),
      suf.length + 1 ≤ fuel →
      queryWalk ops aShape aMinDistance v aExact minDistSq refBBox fuel
          pre.length (pre ++ suf) n s
        = some (queryLoop ops aShape aMinDistance v aExact minDistSq refBBox
            suf n s, pre ++ suf) := by
  induction suf with
  | nil =>
    intro pre fuel n s hfuel
    obtain ⟨f, rfl⟩ : ∃ f, fuel = f + 1 := ⟨fuel - 1, by simp at hfuel; omega⟩
    simp [queryWalk, queryLoop]
  | cons e rest ih =>
    intro pre fuel n s hfuel
    obtain ⟨f, rfl⟩ : ∃ f, fuel = f + 1 := ⟨fuel - 1, by simp at hfuel; omega⟩
    have hlt : pre.length ≠ (pre ++ e :: rest).length := by simp
    have hget : (pre ++ e :: rest)[pre.length]? = some e := by
      rw [List.getElem?_append_right (le_refl _)]; simp
    have ih2 : ∀ n2 s2,
        queryWalk ops aShape aMinDistance v aExact minDistSq refBBox f
            (pre.length + 1) (pre ++ e :: rest) n2 s2
          = some (queryLoop ops aShape aMinDistance v aExact minDistSq refBBox
              rest n2 s2, pre ++ e :: rest) := by
      intro n2 s2
      have := ih (pre ++ [e]) f n2 s2 (by simp at hfuel ⊢; omega)
      simpa using this
    unfold queryWalk queryLoop
    simp only [hlt, ne_eq, not_false_eq_true, if_true, hget]
    by_cases h1 : ops.SquaredDistance refBBox e.bbox ≤ minDistSq
    · by_cases h2 : (!aExact || ops.Collide e.shape (some aShape) aMinDistance) = true
      · by_cases h3 : (v s e.parent).1 = true
        · simp [h1, h2, h3, ih2]
        · simp only [Bool.not_eq_true] at h3
          simp [h1, h2, h3]
      · simp [h1, h2, ih2]
    · simp [h1, ih2]

/-- The method `Query` returns the result of `Query` and leaves the
vector as it was. -/
theorem QueryMethod_eq {T S B σ : Type} (ops : ShapeOps T S B)
    (m_shapes : ShapeVec T S B) (aShape : S) (aMinDistance : Int)
    (v : σ → T → Bool × σ) (s : σ) (aExact : Bool) :
    QueryMethod ops m_shapes aShape aMinDistance v s aExact
      = some (Query ops m_shapes aShape aMinDistance v s aExact, m_shapes) := by
  have := queryWalk_eq ops aShape aMinDistance v aExact
    (wrapInt64 (aMinDistance * aMinDistance)) (ops.BBox aShape 0) m_shapes []
    (m_shapes.length + 1) 0 s (le_refl _)
  simpa [QueryMethod, Query] using this

/-- The entries left by `Remove` are entries of the index, in the same
order. -/
theorem Remove_sublist {T S B : Type} [DecidableEq T]
    (m_shapes : ShapeVec T S B) (x : T) :
    List.Sublist (Remove m_shapes x) m_shapes := by
  unfold Remove
  simp only
  split
  · exact List.Sublist.refl _
  · exact List.eraseIdx_sublist _ _

/-- An entry stored after the calls of `history` on the vector `st` is an
entry of `st` or the entry made by an `Add` of `history`. -/
theorem foldl_applyOp_mem {T S B σ : Type} [DecidableEq T]
    (history : List (IndexOp T S B σ)) :
    ∀ (st : ShapeVec T S B) (e : ShapeEntry T S B),
      e ∈ history.foldl applyOp st →
      e ∈ st ∨ ∃ w x, IndexOp.add w x ∈ history ∧ e = ShapeEntry.ctor w x := by
  induction history with
  | nil => intro st e h; exact Or.inl h
  | cons op rest ih =>
    intro st e h
    rw [List.foldl_cons] at h
    rcases ih _ e h with h1 | ⟨w, x, hmem, heq⟩
    · cases op with
      | add w x =>
        simp only [applyOp, Add, List.mem_append, List.mem_singleton] at h1
        rcases h1 with h2 | h2
        · exact Or.inl h2
        · exact Or.inr ⟨w, x, by simp, h2⟩
      | remove x =>
        exact Or.inl ((Remove_sublist st x).subset h1)
      | clear =>
        simp [applyOp, Clear] at h1
      | query w sh m v s ex =>
        simp only [applyOp, QueryMethod_eq] at h1
        exact Or.inl h1
    · exact Or.inr ⟨w, x, List.mem_cons_of_mem _ hmem, heq⟩

/-! ## C16: the cached entry -/

/-- C16: an entry `e` stored after any sequence of `Add`, `Remove`,
`Clear` and `Query` calls on the empty index is the entry made by one of
the `Add` calls: `e.shape` is the shape given by the functor for
`e.parent` and `e.bbox` the box `BBox( 0 )` of that shape, as the library
was at that call; `Remove` leaves a sublist of the stored entries and
`Query` leaves the stored entries as they are. -/
theorem C16_cached_entry_invariant {T S B σ : Type} [DecidableEq T]
    (history : List (IndexOp T S B σ)) (e : ShapeEntry T S B)
    (he : e ∈ runOps history) :
    (∃ w x, IndexOp.add w x ∈ history ∧ e.parent = x
        ∧ e.shape = w.ShapeFunctor e.parent ∧ e.bbox = w.BBox e.shape 0)
      ∧ (∀ x : T, List.Sublist
          (applyOp (runOps history) (IndexOp.remove x : IndexOp T S B σ))
          (runOps history))
      ∧ ∀ (w : ShapeOps T S B) (aShape : S) (aMinDistance : Int)
          (v : σ → T → Bool × σ) (s : σ) (aExact : Bool),
          applyOp (runOps history)
              (IndexOp.query w aShape aMinDistance v s aExact)
            = runOps history := by
  refine ⟨?_, ?_, ?_⟩
  · rcases foldl_applyOp_mem history [] e he with h | ⟨w, x, hmem, heq⟩
    · simp at h
    · subst heq
      exact ⟨w, x, hmem, rfl, rfl, rfl⟩
  · intro x
    exact Remove_sublist _ x
  · intro w aShape aMinDistance v s aExact
    simp [applyOp, QueryMethod_eq]

/-- C16 (witness): the calls `Add( 0 )`, `Add( 1 )`, `Query`,
`Remove( 0 )`, `Add( 2 )` leave the entries of the items 1 and 2. -/
theorem C16_cached_entry_invariant_witness :
    ShapeEntry.ctor discOps 2
        ∈ runOps [IndexOp.add discOps 0, IndexOp.add discOps 1,
          IndexOp.query discOps (discOf 0) 0 keepGoing () true,
          IndexOp.remove 0, IndexOp.add discOps 2]
      ∧ runOps [IndexOp.add discOps 0, IndexOp.add discOps 1,
          IndexOp.query discOps (discOf 0) 0 keepGoing () true,
          IndexOp.remove 0, IndexOp.add discOps 2]
        = [ShapeEntry.ctor discOps 1, ShapeEntry.ctor discOps 2]
      ∧ (ShapeEntry.ctor discOps 2).shape = discOf 2
      ∧ ∃ w x, IndexOp.add w x
            ∈ [IndexOp.add discOps 0, IndexOp.add discOps 1,
              IndexOp.query discOps (discOf 0) 0 keepGoing () true,
              IndexOp.remove 0, IndexOp.add discOps 2]
          ∧ (ShapeEntry.ctor discOps 2).parent = x
          ∧ (ShapeEntry.ctor discOps 2).shape
            = w.ShapeFunctor (ShapeEntry.ctor discOps 2).parent
          ∧ (ShapeEntry.ctor discOps 2).bbox
            = w.BBox (ShapeEntry.ctor discOps 2).shape 0 :=
  ⟨by decide, by decide, rfl,
    (C16_cached_entry_invariant
      [IndexOp.add discOps 0, IndexOp.add discOps 1,
        IndexOp.query discOps (discOf 0) 0 keepGoing () true,
        IndexOp.remove 0, IndexOp.add discOps 2]
      (ShapeEntry.ctor discOps 2) (by decide)).1⟩

/-! ## C17: Query is read-only -/

/-- C17: whatever the query shape, the distance, the flag and the visitor
(stopping early or not), the method `Query` returns, and the vector of
entries when it returns is the vector it was called on: the size, the
plain traversal and the result of any later `Query` are those of the
index before the call. -/
theorem C17_Query_read_only {T S B σ : Type} (ops : ShapeOps T S B)
    (m_shapes : ShapeVec T S B) (aShape : S) (aMinDistance : Int)
    (v : σ → T → Bool × σ) (s : σ) (aExact : Bool) :
    ∃ res after,
      QueryMethod ops m_shapes aShape aMinDistance v s aExact = some (res, after)
        ∧ res = Query ops m_shapes aShape aMinDistance v s aExact
        ∧ after = m_shapes
        ∧ Size after = Size m_shapes
        ∧ (∀ fuel, traverse after fuel (begin after)
            = traverse m_shapes fuel (begin m_shapes))
        ∧ ∀ (σ2 : Type) (ops2 : ShapeOps T S B) (aShape2 : S)
            (aMinDistance2 : Int) (v2 : σ2 → T → Bool × σ2) (s2 : σ2)
            (aExact2 : Bool),
            Query ops2 after aShape2 aMinDistance2 v2 s2 aExact2
              = Query ops2 m_shapes aShape2 aMinDistance2 v2 s2 aExact2 :=
  ⟨_, _, QueryMethod_eq ops m_shapes aShape aMinDistance v s aExact, rfl, rfl,
    rfl, fun _ => rfl, fun _ _ _ _ _ _ _ => rfl⟩

/-! ## C18: the sign of minDistance -/

/-- C18: for an `int` `d` other than `INT_MIN`, the 64-bit square of
`-d` and of `d` is `d²` without overflow, and `Query( shape, -d, visitor,
exact = false )` calls the visitor on the same items in the same order
and returns the same count as `Query( shape, d, visitor, exact = false )`. -/
theorem C18_Query_sign_of_minDistance {T S B σ : Type} (ops : ShapeOps T S B)
    (m_shapes : ShapeVec T S B) (aShape : S) (v : σ → T → Bool × σ) (s : σ)
    (d : Int) (hd : isInt d) (hmin : d ≠ INT_MIN) :
    isInt (-d)
      ∧ wrapInt64 (d * d) = d * d
      ∧ wrapInt64 (-d * -d) = d * d
      ∧ Query ops m_shapes aShape (-d) v s false
        = Query ops m_shapes aShape d v s false
      ∧ Query ops m_shapes aShape (-d) (logged v) (s, []) false
        = Query ops m_shapes aShape d (logged v) (s, []) false := by
  have hneg : isInt (-d) := by
    unfold isInt at hd ⊢
    unfold INT_MIN at hd hmin ⊢
    unfold INT_MAX at hd ⊢
    omega
  have hq : queryMatch ops aShape (-d) false = queryMatch ops aShape d false := by
    funext e
    simp only [queryMatch, neg_mul_neg, Bool.not_false, Bool.true_or]
  have hm : matched ops m_shapes aShape (-d) false
      = matched ops m_shapes aShape d false := by
    simp only [matched, hq]
  refine ⟨hneg, wrapInt64_sq_of_isInt d hd, ?_, ?_, ?_⟩
  · rw [neg_mul_neg]; exact wrapInt64_sq_of_isInt d hd
  · rw [Query_eq, Query_eq, hm]
  · rw [Query_eq, Query_eq, hm]

/-- C18 (witness): `d = 1` on the index of the items 0, 1, 2: with
`minDistance = -1` the visitor is called on the items 0 and 2, as with
`minDistance = 1`. -/
theorem C18_Query_sign_of_minDistance_witness :
    isInt 1 ∧ (1 : Int) ≠ INT_MIN
      ∧ Query discOps (addAll discOps [] [0, 1, 2]) (discOf 0) (-1)
          (logged keepGoing) ((), []) false = (2, ((), [0, 2]))
      ∧ Query discOps (addAll discOps [] [0, 1, 2]) (discOf 0) (-1)
          (logged keepGoing) ((), []) false
        = Query discOps (addAll discOps [] [0, 1, 2]) (discOf 0) 1
          (logged keepGoing) ((), []) false :=
  ⟨by decide, by decide, by decide,
    (C18_Query_sign_of_minDistance discOps (addAll discOps [] [0, 1, 2])
      (discOf 0) keepGoing () 1 (by decide) (by decide)).2.2.2.2⟩

/-! ## Lemmas on rescale -/

theorem mod_mul_add_mod (m k y N : Nat) :
    ((m % N) * k + y) % N = (m * k + y) % N :=
  ((Nat.mod_modEq m N).mul_right k).add_right y

theorem rescaleLoop_spec (a0 c : Nat) (hc : c ≤ 2 ^ 63) :
    ∀ (i a1 t1 : Nat), a1 < c → t1 < 2 ^ 64 →
      rescaleLoop a0 c i (a1, t1)
        = ((a1 * 2 ^ i + a0 % 2 ^ i) % c,
            (t1 * 2 ^ i + (a1 * 2 ^ i + a0 % 2 ^ i) / c) % 2 ^ 64) := by
  intro i
  induction i with
  | zero =>
    intro a1 t1 h1 ht
    simp only [rescaleLoop, pow_zero, Nat.mod_one, Nat.mul_one, Nat.add_zero,
      Nat.mod_eq_of_lt h1, Nat.div_eq_of_lt h1, Nat.mod_eq_of_lt ht]
  | succ i ih =>
    intro a1 t1 h1 ht
    have hc0 : 0 < c := by omega
    have hbit : (a0 >>> i) &&& 1 = a0 / 2 ^ i % 2 := by
      rw [Nat.shiftRight_eq_div_pow, Nat.and_one_is_mod]
    have hb : a0 / 2 ^ i % 2 < 2 := Nat.mod_lt _ (by norm_num)
    have hx : u64 (a1 + u64 (a1 + ((a0 >>> i) &&& 1))) = 2 * a1 + a0 / 2 ^ i % 2 := by
      rw [hbit]
      unfold u64
      rw [Nat.mod_eq_of_lt (by omega), Nat.mod_eq_of_lt (by omega)]
      omega
    have hmod : a0 % 2 ^ (i + 1) = a0 % 2 ^ i + 2 ^ i * (a0 / 2 ^ i % 2) :=
      Nat.mod_pow_succ
    have hD : a1 * 2 ^ (i + 1) + a0 % 2 ^ (i + 1)
        = (2 * a1 + a0 / 2 ^ i % 2) * 2 ^ i + a0 % 2 ^ i := by
      rw [hmod, pow_succ]; ring
    rw [hD]
    unfold rescaleLoop
    simp only [hx]
    generalize a0 / 2 ^ i % 2 = bit at hb ⊢
    by_cases hle : c ≤ 2 * a1 + bit
    · simp only [hle, if_true]
      have hsub : u64 (2 * a1 + bit - c) = 2 * a1 + bit - c := by
        unfold u64; exact Nat.mod_eq_of_lt (by omega)
      have hu : u64 (u64 (t1 + t1) + 1) < 2 ^ 64 := Nat.mod_lt _ (by norm_num)
      rw [hsub, ih (2 * a1 + bit - c) (u64 (u64 (t1 + t1) + 1)) (by omega) hu]
      have hsplit : (2 * a1 + bit) * 2 ^ i + a0 % 2 ^ i
          = (2 * a1 + bit - c) * 2 ^ i + a0 % 2 ^ i + c * 2 ^ i := by
        have : 2 * a1 + bit = (2 * a1 + bit - c) + c := by omega
        conv_lhs => rw [this]
        ring
      rw [hsplit, Nat.add_mul_mod_self_left, Nat.add_mul_div_left _ _ hc0]
      congr 1
      unfold u64
      rw [mod_mul_add_mod]
      have h1m : ((t1 + t1) % 2 ^ 64 + 1) * 2 ^ i = ((t1 + t1) % 2 ^ 64) * 2 ^ i + 2 ^ i := by
        ring
      rw [h1m, Nat.add_assoc, mod_mul_add_mod, pow_succ]
      congr 1
      ring
    · simp only [hle, if_false]
      have hu : u64 (t1 + t1) < 2 ^ 64 := Nat.mod_lt _ (by norm_num)
      rw [ih (2 * a1 + bit) (u64 (t1 + t1)) (by omega) hu]
      congr 1
      unfold u64
      rw [mod_mul_add_mod, pow_succ]
      congr 1
      ring


theorem toU64_natCast (k : Nat) (hk : k < 2 ^ 64) : toU64 (k : Int) = k := by
  unfold toU64; omega

theorem wide_sum (p00 p01 p10 p11 R : Nat) (h00 : p00 < 2 ^ 64)
    (h01 : p01 < 2 ^ 63) (h10 : p10 < 2 ^ 63) (h11 : p11 < 2 ^ 62)
    (hR : R < 2 ^ 63) :
    u64 (u64 (u64 (u64 p11 + (u64 (u64 p01 + u64 p10) >>> 32))
          + (if u64 (u64 p00 + u64 (u64 (u64 p01 + u64 p10) <<< 32))
              < u64 (u64 (u64 p01 + u64 p10) <<< 32) then 1 else 0))
        + (if u64 (u64 (u64 p00 + u64 (u64 (u64 p01 + u64 p10) <<< 32)) + R) < R
            then 1 else 0)) * 2 ^ 64
      + u64 (u64 (u64 p00 + u64 (u64 (u64 p01 + u64 p10) <<< 32)) + R)
      = p11 * 2 ^ 64 + (p01 + p10) * 2 ^ 32 + p00 + R := by
  simp only [u64, Nat.shiftLeft_eq, Nat.shiftRight_eq_div_pow]
  split_ifs <;> omega

theorem wrapInt64_u64_mul_sign (q : Nat) (sign : Int)
    (hs : sign = 1 ∨ sign = -1) :
    wrapInt64 (Int.ofNat (u64 (q * toU64 sign))) = wrapInt64 (sign * (q : Int)) := by
  rcases hs with rfl | rfl
  · have h1 : toU64 1 = 1 := by decide
    rw [h1]
    unfold wrapInt64 u64
    simp only [Int.ofNat_eq_coe]
    omega
  · have h1 : toU64 (-1) = 18446744073709551615 := by decide
    rw [h1]
    unfold wrapInt64 u64
    simp only [Int.ofNat_eq_coe]
    omega

theorem rescaleWide_eq (A B C : Nat) (hA : A < 2 ^ 63) (hB : B < 2 ^ 63)
    (hC0 : 0 < C) (hC : C < 2 ^ 63) (sign : Int) (hs : sign = 1 ∨ sign = -1)
    (hQ : (A * B + C / 2) / C < 2 ^ 64) :
    rescaleWide (A : Int) (B : Int) (C : Int) (Int.tdiv (C : Int) 2) sign
      = wrapInt64 (sign * (((A * B + C / 2) / C : Nat) : Int)) := by
  have ha0 : toU64 ((A : Int) % 2 ^ 32) = A % 2 ^ 32 := by unfold toU64; omega
  have ha1 : toU64 ((A : Int) / 2 ^ 32) = A / 2 ^ 32 := by unfold toU64; omega
  have hb0 : toU64 ((B : Int) % 2 ^ 32) = B % 2 ^ 32 := by unfold toU64; omega
  have hb1 : toU64 ((B : Int) / 2 ^ 32) = B / 2 ^ 32 := by unfold toU64; omega
  have hr : toU64 (Int.tdiv (C : Int) 2) = C / 2 := by
    rw [Int.tdiv_eq_ediv (by omega) (by norm_num)]
    unfold toU64; omega
  have hc : toU64 (C : Int) = C := toU64_natCast C (by omega)
  have h00 : A % 2 ^ 32 * (B % 2 ^ 32) < 2 ^ 64 := by
    have h1 : A % 2 ^ 32 < 2 ^ 32 := Nat.mod_lt _ (by norm_num)
    have h2 : B % 2 ^ 32 < 2 ^ 32 := Nat.mod_lt _ (by norm_num)
    calc A % 2 ^ 32 * (B % 2 ^ 32) < 2 ^ 32 * 2 ^ 32 := Nat.mul_lt_mul'' h1 h2
      _ = 2 ^ 64 := by norm_num
  have h01 : A % 2 ^ 32 * (B / 2 ^ 32) < 2 ^ 63 := by
    have h1 : A % 2 ^ 32 < 2 ^ 32 := Nat.mod_lt _ (by norm_num)
    have h2 : B / 2 ^ 32 < 2 ^ 31 := by omega
    calc A % 2 ^ 32 * (B / 2 ^ 32) < 2 ^ 32 * 2 ^ 31 := Nat.mul_lt_mul'' h1 h2
      _ = 2 ^ 63 := by norm_num
  have h10 : A / 2 ^ 32 * (B % 2 ^ 32) < 2 ^ 63 := by
    have h1 : A / 2 ^ 32 < 2 ^ 31 := by omega
    have h2 : B % 2 ^ 32 < 2 ^ 32 := Nat.mod_lt _ (by norm_num)
    calc A / 2 ^ 32 * (B % 2 ^ 32) < 2 ^ 31 * 2 ^ 32 := Nat.mul_lt_mul'' h1 h2
      _ = 2 ^ 63 := by norm_num
  have h11 : A / 2 ^ 32 * (B / 2 ^ 32) < 2 ^ 62 := by
    have h1 : A / 2 ^ 32 < 2 ^ 31 := by omega
    have h2 : B / 2 ^ 32 < 2 ^ 31 := by omega
    calc A / 2 ^ 32 * (B / 2 ^ 32) < 2 ^ 31 * 2 ^ 31 := Nat.mul_lt_mul'' h1 h2
      _ = 2 ^ 62 := by norm_num
  have hAB : A * B = A / 2 ^ 32 * (B / 2 ^ 32) * 2 ^ 64
      + (A % 2 ^ 32 * (B / 2 ^ 32) + A / 2 ^ 32 * (B % 2 ^ 32)) * 2 ^ 32
      + A % 2 ^ 32 * (B % 2 ^ 32) := by
    have hA2 : A = 2 ^ 32 * (A / 2 ^ 32) + A % 2 ^ 32 := (Nat.div_add_mod A _).symm
    have hB2 : B = 2 ^ 32 * (B / 2 ^ 32) + B % 2 ^ 32 := (Nat.div_add_mod B _).symm
    generalize A / 2 ^ 32 = x1 at hA2 ⊢
    generalize A % 2 ^ 32 = x0 at hA2 ⊢
    generalize B / 2 ^ 32 = y1 at hB2 ⊢
    generalize B % 2 ^ 32 = y0 at hB2 ⊢
    subst hA2 hB2
    ring
  have hsum := wide_sum _ _ _ _ (C / 2) h00 h01 h10 h11 (by omega)
  rw [← hAB] at hsum
  unfold rescaleWide
  simp only [ha0, ha1, hb0, hb1, hr, hc]
  generalize hhi : u64 (u64 (u64 (u64 (A / 2 ^ 32 * (B / 2 ^ 32))
      + (u64 (u64 (A % 2 ^ 32 * (B / 2 ^ 32)) + u64 (A / 2 ^ 32 * (B % 2 ^ 32))) >>> 32))
      + (if u64 (u64 (A % 2 ^ 32 * (B % 2 ^ 32))
            + u64 (u64 (u64 (A % 2 ^ 32 * (B / 2 ^ 32))
              + u64 (A / 2 ^ 32 * (B % 2 ^ 32))) <<< 32))
          < u64 (u64 (u64 (A % 2 ^ 32 * (B / 2 ^ 32))
              + u64 (A / 2 ^ 32 * (B % 2 ^ 32))) <<< 32) then 1 else 0))
      + (if u64 (u64 (u64 (A % 2 ^ 32 * (B % 2 ^ 32))
            + u64 (u64 (u64 (A % 2 ^ 32 * (B / 2 ^ 32))
              + u64 (A / 2 ^ 32 * (B % 2 ^ 32))) <<< 32)) + C / 2) < C / 2
          then 1 else 0)) = hi at hsum ⊢
  generalize hlo : u64 (u64 (u64 (A % 2 ^ 32 * (B % 2 ^ 32))
      + u64 (u64 (u64 (A % 2 ^ 32 * (B / 2 ^ 32))
        + u64 (A / 2 ^ 32 * (B % 2 ^ 32))) <<< 32)) + C / 2) = lo at hsum ⊢
  generalize ht : u64 (u64 (A % 2 ^ 32 * (B / 2 ^ 32)) + u64 (A / 2 ^ 32 * (B % 2 ^ 32)))
    = t1 at *
  have hlo_lt : lo < 2 ^ 64 := by rw [← hlo]; exact Nat.mod_lt _ (by norm_num)
  have ht_lt : t1 < 2 ^ 64 := by rw [← ht]; exact Nat.mod_lt _ (by norm_num)
  have hD : A * B + C / 2 < C * 2 ^ 64 := by
    have := (Nat.div_lt_iff_lt_mul hC0).mp hQ
    omega
  have hhi_lt : hi < C := by omega
  rw [rescaleLoop_spec lo C (by omega) 64 hi t1 hhi_lt ht_lt]
  simp only
  rw [Nat.mod_eq_of_lt hlo_lt, hsum, Nat.mul_comm t1, Nat.mul_add_mod,
    Nat.mod_eq_of_lt hQ]
  exact wrapInt64_u64_mul_sign _ sign hs
theorem wrapInt64_of_isInt64 (x : Int) (h : isInt64 x) : wrapInt64 x = x := by
  unfold isInt64 at h
  unfold INT64_MIN at h
  unfold INT64_MAX at h
  unfold wrapInt64
  omega

theorem wrapInt64_natCast (p : Nat) (h : p < 2 ^ 63) :
    wrapInt64 (p : Int) = (p : Int) := by
  unfold wrapInt64; omega

theorem checkInt64_of_isInt64 (x : Int) (h : isInt64 x) :
    checkInt64 x = some x := by
  unfold checkInt64; rw [if_pos h]

theorem isInt64_natCast (p : Nat) (h : p < 2 ^ 63) : isInt64 (p : Int) := by
  unfold isInt64 INT64_MIN INT64_MAX; omega

theorem checkInt64_natCast (p : Nat) (h : p < 2 ^ 63) :
    checkInt64 (p : Int) = some (p : Int) :=
  checkInt64_of_isInt64 _ (isInt64_natCast p h)

theorem isInt64_sign_mul (sign : Int) (q : Nat) (hs : sign = 1 ∨ sign = -1)
    (h : q < 2 ^ 63) : isInt64 (sign * (q : Int)) := by
  unfold isInt64 INT64_MIN INT64_MAX
  rcases hs with rfl | rfl <;> omega

theorem small_product_bound (x y c : Nat) (hx : x ≤ 2147483647)
    (hy : y ≤ 2147483647) (hc : c ≤ 2147483647) : x * y + c / 2 < 2 ^ 63 := by
  have h1 : x * y ≤ 2147483647 * 2147483647 := Nat.mul_le_mul hx hy
  have h2 : c / 2 ≤ c := Nat.div_le_self _ _
  have h3 : (2147483647 * 2147483647 + 2147483647 : Nat) < 2 ^ 63 := by norm_num
  omega

/-- The three branches of `rescale<int64_t>` on the magnitudes `A`, `B`,
`C` of its arguments, when the magnitude of the scaled value is at most
`INT64_MAX`: no signed operation overflows and the result is the sign
times that magnitude. -/
theorem rescale_int64_branches (A B C : Nat) (hA : A < 2 ^ 63) (hB : B < 2 ^ 63)
    (hC0 : 0 < C) (hC : C < 2 ^ 63) (sign : Int) (hs : sign = 1 ∨ sign = -1)
    (hQ : (A * B + C / 2) / C < 2 ^ 63) :
    (if (B : Int) ≤ INT_MAX ∧ (C : Int) ≤ INT_MAX then
        if (C : Int) = 0 then none
        else if (A : Int) ≤ INT_MAX then
          (checkInt64 ((A : Int) * B)).bind fun ab =>
          (checkInt64 (ab + Int.tdiv (C : Int) 2)).bind fun abr =>
          (checkInt64 (Int.tdiv abr C)).bind fun q =>
          checkInt64 (sign * q)
        else
          (checkInt64 (Int.tdiv (A : Int) C)).bind fun q1 =>
          (checkInt64 (q1 * B)).bind fun q1b =>
          (checkInt64 (Int.tmod (A : Int) C)).bind fun m =>
          (checkInt64 (m * B)).bind fun mb =>
          (checkInt64 (mb + Int.tdiv (C : Int) 2)).bind fun mbr =>
          (checkInt64 (Int.tdiv mbr C)).bind fun q2 =>
          (checkInt64 (q1b + q2)).bind fun sum =>
          checkInt64 (sign * sum)
      else some (rescaleWide A B C (Int.tdiv (C : Int) 2) sign))
      = some (sign * (((A * B + C / 2) / C : Nat) : Int)) := by
  have hr : Int.tdiv (C : Int) 2 = ((C / 2 : Nat) : Int) := by
    rw [Int.tdiv_eq_ediv (Int.natCast_nonneg C) (by norm_num)]; rfl
  have hCne : (C : Int) ≠ 0 := Int.natCast_ne_zero.mpr (Nat.pos_iff_ne_zero.mp hC0)
  have hCnn : (0 : Int) ≤ (C : Int) := Int.natCast_nonneg C
  have hres := isInt64_sign_mul sign _ hs hQ
  by_cases hsmall : (B : Int) ≤ INT_MAX ∧ (C : Int) ≤ INT_MAX
  · rw [if_pos hsmall, if_neg hCne]
    obtain ⟨hB2, hC2⟩ := hsmall
    have hB3 : B ≤ 2147483647 := by unfold INT_MAX at hB2; exact Int.ofNat_le.mp hB2
    have hC3 : C ≤ 2147483647 := by unfold INT_MAX at hC2; exact Int.ofNat_le.mp hC2
    by_cases hAs : (A : Int) ≤ INT_MAX
    · rw [if_pos hAs]
      have hA3 : A ≤ 2147483647 := by unfold INT_MAX at hAs; exact Int.ofNat_le.mp hAs
      have hb := small_product_bound A B C hA3 hB3 hC3
      rw [← Int.natCast_mul, hr,
        checkInt64_natCast (A * B) (lt_of_le_of_lt (Nat.le_add_right _ _) hb),
        Option.some_bind, ← Int.natCast_add, checkInt64_natCast _ hb,
        Option.some_bind, Int.tdiv_eq_ediv (Int.natCast_nonneg _) hCnn,
        ← Int.natCast_div, checkInt64_natCast _ hQ, Option.some_bind,
        checkInt64_of_isInt64 _ hres]
    · rw [if_neg hAs]
      have hmod : Int.tmod (A : Int) C = ((A % C : Nat) : Int) := by
        rw [Int.tmod_eq_emod (Int.natCast_nonneg A) hCnn, Int.natCast_mod]
      have hdiv : Int.tdiv (A : Int) C = ((A / C : Nat) : Int) := by
        rw [Int.tdiv_eq_ediv (Int.natCast_nonneg A) hCnn, Int.natCast_div]
      have hlt2 : A % C ≤ 2147483647 := le_trans (le_of_lt (Nat.mod_lt _ hC0)) hC3
      have hb := small_product_bound (A % C) B C hlt2 hB3 hC3
      have hq2 : (A % C * B + C / 2) / C < 2 ^ 63 :=
        lt_of_le_of_lt (Nat.div_le_self _ _) hb
      have hsplit : (A * B + C / 2) / C = A / C * B + (A % C * B + C / 2) / C := by
        have hA2 : A * B + C / 2 = C * (A / C * B) + (A % C * B + C / 2) := by
          conv_lhs => rw [← Nat.div_add_mod A C]
          ring
        rw [hA2, Nat.mul_add_div hC0]
      have hq1 : A / C * B < 2 ^ 63 :=
        lt_of_le_of_lt (by rw [hsplit]; exact Nat.le_add_right _ _) hQ
      rw [hsplit] at hres hQ
      rw [hmod, hdiv, hr, hsplit,
        checkInt64_natCast (A / C) (lt_of_le_of_lt (Nat.div_le_self _ _) hA),
        Option.some_bind, ← Int.natCast_mul, checkInt64_natCast _ hq1,
        Option.some_bind,
        checkInt64_natCast (A % C) (lt_of_le_of_lt hlt2 (by norm_num)),
        Option.some_bind, ← Int.natCast_mul,
        checkInt64_natCast (A % C * B) (lt_of_le_of_lt (Nat.le_add_right _ _) hb),
        Option.some_bind, ← Int.natCast_add, checkInt64_natCast _ hb,
        Option.some_bind, Int.tdiv_eq_ediv (Int.natCast_nonneg _) hCnn,
        ← Int.natCast_div, checkInt64_natCast _ hq2, Option.some_bind,
        ← Int.natCast_add, checkInt64_natCast _ hQ, Option.some_bind,
        checkInt64_of_isInt64 _ hres]
  · rw [if_neg hsmall]
    rw [rescaleWide_eq A B C hA hB hC0 hC sign hs (lt_trans hQ (by norm_num)),
      wrapInt64_of_isInt64 _ hres]

theorem rescaleSign_cases (n v d : Int) :
    rescaleSign n v d = 1 ∨ rescaleSign n v d = -1 := by
  unfold rescaleSign
  split_ifs <;> simp

theorem natAbs_lt_of_isInt64 (x : Int) (h : isInt64 x) (hmin : x ≠ INT64_MIN) :
    x.natAbs < 2 ^ 63 := by
  unfold isInt64 at h
  unfold INT64_MIN at h hmin
  unfold INT64_MAX at h
  omega

/-- What `rescale<int64_t>` computes when the magnitude of the scaled
value is at most `INT64_MAX`: no signed operation overflows and the
result is the sign times the magnitude. -/
theorem rescale_int64_eq (n v d : Int) (hn : isInt64 n) (hv : isInt64 v)
    (hd : isInt64 d) (hn1 : n ≠ INT64_MIN) (hv1 : v ≠ INT64_MIN)
    (hd1 : d ≠ INT64_MIN) (hd0 : d ≠ 0)
    (hQ : rescaleMagnitude n v d < 2 ^ 63) :
    rescale_int64 n v d
      = some (rescaleSign n v d * (rescaleMagnitude n v d : Int)) := by
  have hA := natAbs_lt_of_isInt64 n hn hn1
  have hB := natAbs_lt_of_isInt64 v hv hv1
  have hC := natAbs_lt_of_isInt64 d hd hd1
  have hC0 : 0 < d.natAbs := Int.natAbs_pos.mpr hd0
  have hs0 : checkInt64
      ((if n < 0 then -1 else 1) * (if d < 0 then -1 else 1))
      = some ((if n < 0 then -1 else 1) * (if d < 0 then -1 else 1)) := by
    apply checkInt64_of_isInt64
    split_ifs <;> decide
  have hsign : checkInt64
      ((if n < 0 then -1 else 1) * (if d < 0 then -1 else 1)
        * (if v < 0 then -1 else 1)) = some (rescaleSign n v d) := by
    rw [checkInt64_of_isInt64]
    · rfl
    · split_ifs <;> decide
  have ha : checkInt64 |n| = some (n.natAbs : Int) := by
    rw [Int.abs_eq_natAbs]; exact checkInt64_natCast _ hA
  have hb : checkInt64 |v| = some (v.natAbs : Int) := by
    rw [Int.abs_eq_natAbs]; exact checkInt64_natCast _ hB
  have hc : checkInt64 |d| = some (d.natAbs : Int) := by
    rw [Int.abs_eq_natAbs]; exact checkInt64_natCast _ hC
  have h := rescale_int64_branches n.natAbs v.natAbs d.natAbs hA hB hC0 hC
    (rescaleSign n v d) (rescaleSign_cases n v d) hQ
  unfold rescale_int64
  simp only [Option.bind_eq_bind, hs0, Option.some_bind, hsign, ha, hb, hc]
  exact h

/-- The magnitude of the scaled value is zero when the numerator or the
value is zero. -/
theorem rescaleMagnitude_of_zero (n v d : Int) (hd0 : d ≠ 0)
    (h : n = 0 ∨ v = 0) : rescaleMagnitude n v d = 0 := by
  have hC0 : 0 < d.natAbs := Int.natAbs_pos.mpr hd0
  have hp : n.natAbs * v.natAbs = 0 := by
    rcases h with h | h <;> simp [h]
  unfold rescaleMagnitude
  rw [hp, Nat.zero_add]
  exact Nat.div_eq_of_lt (Nat.div_lt_self hC0 (by norm_num))

/-- The sign and the magnitude computed by `rescale<int64_t>` give the
scaled value of the documentation. -/
theorem rescaleSign_mul_magnitude (n v d : Int) (hd0 : d ≠ 0) :
    rescaleSign n v d * (rescaleMagnitude n v d : Int) = rescaleNearest n v d := by
  have hmag : ((|n| * |v| + |d| / 2) / |d| : Int) = (rescaleMagnitude n v d : Int) := by
    unfold rescaleMagnitude
    rw [Int.abs_eq_natAbs, Int.abs_eq_natAbs, Int.abs_eq_natAbs]
    push_cast
    rfl
  unfold rescaleNearest
  rw [hmag]
  by_cases hz : n = 0 ∨ v = 0
  · rw [rescaleMagnitude_of_zero n v d hd0 hz]; simp
  · push_neg at hz
    obtain ⟨hn0, hv0⟩ := hz
    have hsn : Int.sign n = if n < 0 then -1 else 1 := by
      rcases lt_trichotomy n 0 with h | h | h
      · rw [Int.sign_eq_neg_one_of_neg h, if_pos h]
      · exact absurd h hn0
      · rw [Int.sign_eq_one_of_pos h, if_neg (not_lt.mpr (le_of_lt h))]
    have hsv : Int.sign v = if v < 0 then -1 else 1 := by
      rcases lt_trichotomy v 0 with h | h | h
      · rw [Int.sign_eq_neg_one_of_neg h, if_pos h]
      · exact absurd h hv0
      · rw [Int.sign_eq_one_of_pos h, if_neg (not_lt.mpr (le_of_lt h))]
    have hsd : Int.sign d = if d < 0 then -1 else 1 := by
      rcases lt_trichotomy d 0 with h | h | h
      · rw [Int.sign_eq_neg_one_of_neg h, if_pos h]
      · exact absurd h hd0
      · rw [Int.sign_eq_one_of_pos h, if_neg (not_lt.mpr (le_of_lt h))]
    rw [hsn, hsv, hsd]
    unfold rescaleSign
    ring

/-- When the scaled value fits in `int64_t` and is not `INT64_MIN`, its
magnitude is at most `INT64_MAX`. -/
theorem rescaleMagnitude_lt (n v d : Int) (hd0 : d ≠ 0)
    (hfit : isInt64 (rescaleNearest n v d))
    (hmin : rescaleNearest n v d ≠ INT64_MIN) :
    rescaleMagnitude n v d < 2 ^ 63 := by
  rw [← rescaleSign_mul_magnitude n v d hd0] at hfit hmin
  unfold isInt64 at hfit
  unfold INT64_MIN at hfit hmin
  unfold INT64_MAX at hfit
  rcases rescaleSign_cases n v d with h | h <;> (rw [h] at hfit hmin; omega)

/-- The magnitude of the scaled value is the nearest integer to
`|n|·|v| / |d|`, a tie being rounded up. -/
theorem rescaleMagnitude_nearest (n v d : Int) (hd0 : d ≠ 0) :
    -(d.natAbs : Int)
        ≤ 2 * ((n.natAbs * v.natAbs : Nat) - (rescaleMagnitude n v d * d.natAbs : Nat))
      ∧ 2 * (((n.natAbs * v.natAbs : Nat) : Int)
          - ((rescaleMagnitude n v d * d.natAbs : Nat) : Int)) < (d.natAbs : Int) := by
  have hC0 : 0 < d.natAbs := Int.natAbs_pos.mpr hd0
  have h1 := Nat.div_add_mod (n.natAbs * v.natAbs + d.natAbs / 2) d.natAbs
  have h2 := Nat.mod_lt (n.natAbs * v.natAbs + d.natAbs / 2) hC0
  unfold rescaleMagnitude
  rw [Nat.mul_comm ((n.natAbs * v.natAbs + d.natAbs / 2) / d.natAbs)]
  generalize d.natAbs * ((n.natAbs * v.natAbs + d.natAbs / 2) / d.natAbs) = P at h1 ⊢
  generalize (n.natAbs * v.natAbs + d.natAbs / 2) % d.natAbs = m at h1 h2
  generalize n.natAbs * v.natAbs = x at h1 ⊢
  generalize d.natAbs = c at *
  omega

theorem abs_rescaleNearest (n v d : Int) (hd0 : d ≠ 0) :
    |rescaleNearest n v d| = (rescaleMagnitude n v d : Int) := by
  rw [← rescaleSign_mul_magnitude n v d hd0]
  rcases rescaleSign_cases n v d with h | h <;> rw [h] <;> simp

/-- For `int64_t` arguments other than `INT64_MIN`, a denominator that
is not zero and a scaled value that fits in `int64_t` and is not
`INT64_MIN`, no signed operation of `rescale<int64_t>( n, v, d )`
overflows and it returns
`sgn n · sgn v · sgn d · ⌊(|n|·|v| + ⌊|d|/2⌋) / |d|⌋` computed over
unbounded integers, whichever of its three branches is taken; the
magnitude of that value is the nearest integer to `|n|·|v| / |d|`, a tie
being rounded away from zero. -/
theorem rescale_int64_exact (n v d : Int) (hn : isInt64 n) (hv : isInt64 v)
    (hd : isInt64 d) (hn1 : n ≠ INT64_MIN) (hv1 : v ≠ INT64_MIN)
    (hd1 : d ≠ INT64_MIN) (hd0 : d ≠ 0)
    (hfit : isInt64 (rescaleNearest n v d))
    (hmin : rescaleNearest n v d ≠ INT64_MIN) :
    rescale_int64 n v d = some (rescaleNearest n v d)
      ∧ -|d| ≤ 2 * (|n| * |v| - |rescaleNearest n v d| * |d|)
      ∧ 2 * (|n| * |v| - |rescaleNearest n v d| * |d|) < |d| := by
  have hQ := rescaleMagnitude_lt n v d hd0 hfit hmin
  have h := rescale_int64_eq n v d hn hv hd hn1 hv1 hd1 hd0 hQ
  rw [rescaleSign_mul_magnitude n v d hd0] at h
  have hnear := rescaleMagnitude_nearest n v d hd0
  rw [abs_rescaleNearest n v d hd0, Int.abs_eq_natAbs n, Int.abs_eq_natAbs v,
    Int.abs_eq_natAbs d, ← Int.natCast_mul, ← Int.natCast_mul]
  exact ⟨h, hnear.1, hnear.2⟩

/-- One input for each branch of `rescale<int64_t>`: small operands; a
numerator above `INT_MAX`; a value and a denominator above `INT_MAX`,
with a product `|n|·|v|` above `2^64`. -/
theorem rescale_int64_exact_examples :
    rescale_int64 (-7) 3 2 = some (-11)
      ∧ rescale_int64 1099511627779 1048576 (-1048577) = some (-1099510579204)
      ∧ (2 : Int) ^ 64 < 4611686018427400249 * 2305843009213694951
      ∧ rescale_int64 4611686018427400249 (-2305843009213694951)
          4611686018427387911 = some (-2305843009213701120) :=
  ⟨by decide, by decide, by decide,
    (rescale_int64_exact 4611686018427400249 (-2305843009213694951)
      4611686018427387911 (by decide) (by decide) (by decide) (by decide)
      (by decide) (by decide) (by decide) (by decide) (by decide)).1.trans
      (by decide)⟩

theorem wrapInt32_of_isInt (x : Int) (h : isInt x) : wrapInt32 x = x := by
  unfold isInt at h
  unfold INT_MIN at h
  unfold INT_MAX at h
  unfold wrapInt32
  omega

theorem natAbs_le_of_isInt (x : Int) (h : isInt x) : x.natAbs ≤ 2147483648 := by
  unfold isInt at h
  unfold INT_MIN at h
  unfold INT_MAX at h
  omega

/-- The product of two `int` values fits in `int64_t`. -/
theorem isInt64_mul_of_isInt (n v : Int) (hn : isInt n) (hv : isInt v) :
    isInt64 (n * v) := by
  have h1 := natAbs_le_of_isInt n hn
  have h2 := natAbs_le_of_isInt v hv
  have h3 : (n * v).natAbs ≤ 2147483648 * 2147483648 := by
    rw [Int.natAbs_mul]; exact Nat.mul_le_mul h1 h2
  unfold isInt64 INT64_MIN INT64_MAX
  generalize n * v = p at h3
  omega

/-- The truncated quotient of `n * v` by `d` is at most `|v|` in
magnitude when `|n| ≤ |d|`. -/
theorem natAbs_tdiv_le (n v d : Int) (hd0 : d ≠ 0) (hnd : n.natAbs ≤ d.natAbs) :
    (Int.tdiv (n * v) d).natAbs ≤ v.natAbs := by
  have hC0 : 0 < d.natAbs := Int.natAbs_pos.mpr hd0
  rw [Int.natAbs_tdiv, Int.natAbs_mul]
  exact Nat.div_le_of_le_mul (Nat.mul_le_mul_right _ hnd)

theorem tdiv_nonpos_of_opposite (a d : Int) (h : (a ≤ 0 ∧ 0 ≤ d) ∨ (0 ≤ a ∧ d ≤ 0)) :
    Int.tdiv a d ≤ 0 := by
  rcases h with ⟨ha, hd⟩ | ⟨ha, hd⟩
  · have h1 : Int.tdiv a d = -(Int.tdiv (-a) d) := by rw [Int.neg_tdiv, neg_neg]
    rw [h1]
    have := Int.tdiv_nonneg (neg_nonneg.mpr ha) hd
    omega
  · have h1 : Int.tdiv a d = -(Int.tdiv a (-d)) := by rw [Int.tdiv_neg, neg_neg]
    rw [h1]
    have := Int.tdiv_nonneg ha (neg_nonneg.mpr hd)
    omega

/-- What `rescale<int>` computes when the truncated quotient fits in
`int`. -/
theorem rescale_int_eq (n v d : Int) (hn : isInt n) (hv : isInt v) (hd0 : d ≠ 0)
    (hfit : isInt (Int.tdiv (n * v) d)) :
    rescale_int n v d = some (Int.tdiv (n * v) d) := by
  have h64 : isInt64 (Int.tdiv (n * v) d) := by
    unfold isInt at hfit
    unfold INT_MIN at hfit
    unfold INT_MAX at hfit
    unfold isInt64 INT64_MIN INT64_MAX
    omega
  unfold rescale_int
  rw [if_neg hd0, wrapInt64_of_isInt64 _ (isInt64_mul_of_isInt n v hn hv),
    wrapInt64_of_isInt64 _ h64, wrapInt32_of_isInt _ hfit]

/-! ## C13: the 32-bit rescale -/

/-- C13 (as stated, refuted): for the `int` arguments `n = -100`,
`v = INT_MAX`, `d = 1`, with `d ≠ 0` and `n ≤ d`, `rescale<int>` returns
100 while the quotient of `n * v` by `d` is `-214748364700`: the
narrowing to `int` changes the value. -/
theorem C13_rescale_int_narrowing_changes_value :
    isInt (-100) ∧ isInt 2147483647 ∧ isInt 1 ∧ (1 : Int) ≠ 0 ∧ (-100 : Int) ≤ 1
      ∧ rescale_int (-100) 2147483647 1 = some 100
      ∧ Int.tdiv (-100 * 2147483647) 1 = -214748364700
      ∧ rescale_int (-100) 2147483647 1
        ≠ some (Int.tdiv (-100 * 2147483647) 1) := by
  decide

/-- C13 (amended): for `int` arguments with `d ≠ 0` and `|n| ≤ |d|`, and
with `v ≠ INT_MIN` or `n` and `d` of the same sign (`n * d ≥ 0`), the
64-bit product `n * v` does not overflow and `rescale<int>( n, v, d )`
returns the quotient of the unbounded product `n * v` by `d` truncated
toward zero, which the narrowing to `int` leaves unchanged. -/
theorem C13_rescale_int_exact (n v d : Int) (hn : isInt n) (hv : isInt v)
    (_hd : isInt d) (hd0 : d ≠ 0) (hnd : |n| ≤ |d|)
    (hv1 : v ≠ INT_MIN ∨ 0 ≤ n * d) :
    rescale_int n v d = some (Int.tdiv (n * v) d)
      ∧ wrapInt64 (n * v) = n * v
      ∧ isInt (Int.tdiv (n * v) d) := by
  have hnd2 : n.natAbs ≤ d.natAbs := by
    rw [Int.abs_eq_natAbs, Int.abs_eq_natAbs] at hnd
    exact Int.ofNat_le.mp hnd
  have hle := natAbs_tdiv_le n v d hd0 hnd2
  have hvb := natAbs_le_of_isInt v hv
  have hfit : isInt (Int.tdiv (n * v) d) := by
    rcases hv1 with hv1 | hsame
    · unfold isInt at hv ⊢
      unfold INT_MIN at hv hv1 ⊢
      unfold INT_MAX at hv ⊢
      generalize Int.tdiv (n * v) d = t at hle ⊢
      omega
    · by_cases hvneg : v ≤ 0
      · have hnonpos : Int.tdiv (n * v) d ≤ 0 := by
          apply tdiv_nonpos_of_opposite
          rcases le_total 0 d with hdpos | hdneg
          · left
            have hdpos2 : 0 < d := lt_of_le_of_ne hdpos (Ne.symm hd0)
            have hn0 : 0 ≤ n := by
              by_contra hc
              push_neg at hc
              have := mul_neg_of_neg_of_pos hc hdpos2
              omega
            exact ⟨mul_nonpos_of_nonneg_of_nonpos hn0 hvneg, hdpos⟩
          · right
            have hdneg2 : d < 0 := lt_of_le_of_ne hdneg hd0
            have hn0 : n ≤ 0 := by
              by_contra hc
              push_neg at hc
              have := mul_neg_of_pos_of_neg hc hdneg2
              omega
            exact ⟨mul_nonneg_of_nonpos_of_nonpos hn0 hvneg, hdneg⟩
        unfold isInt
        unfold INT_MIN
        unfold INT_MAX
        generalize Int.tdiv (n * v) d = t at hle hnonpos ⊢
        omega
      · unfold isInt at hv ⊢
        unfold INT_MIN at hv ⊢
        unfold INT_MAX at hv ⊢
        generalize Int.tdiv (n * v) d = t at hle ⊢
        omega
  exact ⟨rescale_int_eq n v d hn hv hd0 hfit,
    wrapInt64_of_isInt64 _ (isInt64_mul_of_isInt n v hn hv), hfit⟩

/-- C13 (witness): `n = -3`, `v = INT_MIN`, `d = -4`: the quotient of
`6442450944` by `-4` is `-1610612736`. -/
theorem C13_rescale_int_exact_witness :
    isInt (-3) ∧ isInt (-2147483648) ∧ isInt (-4) ∧ (-4 : Int) ≠ 0
      ∧ |(-3 : Int)| ≤ |(-4 : Int)|
      ∧ ((-2147483648 : Int) ≠ INT_MIN ∨ (0 : Int) ≤ -3 * -4)
      ∧ rescale_int (-3) (-2147483648) (-4) = some (-1610612736) :=
  ⟨by decide, by decide, by decide, by decide, by decide, Or.inr (by decide),
    (C13_rescale_int_exact (-3) (-2147483648) (-4) (by decide) (by decide)
      (by decide) (by decide) (by decide) (Or.inr (by decide))).1.trans (by decide)⟩

/-- The scaled value of the documentation when the denominator divides
the product exactly: the quotient. -/
theorem rescaleNearest_of_dvd (n v d : Int) (hd0 : d ≠ 0) (hdvd : d ∣ n * v) :
    rescaleNearest n v d = n * v / d := by
  obtain ⟨k, hk⟩ := hdvd
  have habs : |n| * |v| = |d| * |k| := by rw [← abs_mul, ← abs_mul, hk]
  have hdpos : 0 < |d| := abs_pos.mpr hd0
  have hhalf : |d| / 2 / |d| = 0 :=
    Int.ediv_eq_zero_of_lt (Int.ediv_nonneg (le_of_lt hdpos) (by norm_num))
      (Int.ediv_lt_of_lt_mul (by norm_num) (by omega))
  have hq : (|n| * |v| + |d| / 2) / |d| = |k| := by
    rw [habs, Int.add_comm, Int.add_mul_ediv_left _ _ (ne_of_gt hdpos), hhalf,
      Int.zero_add]
  have hsign : Int.sign n * Int.sign v = Int.sign d * Int.sign k := by
    rw [← Int.sign_mul, ← Int.sign_mul, hk]
  have hdd : Int.sign d * Int.sign d = 1 := by
    rcases lt_or_gt_of_ne hd0 with h | h
    · rw [Int.sign_eq_neg_one_of_neg h]; norm_num
    · rw [Int.sign_eq_one_of_pos h]; norm_num
  unfold rescaleNearest
  rw [hq, hsign, hk, Int.mul_ediv_cancel_left _ hd0]
  calc Int.sign d * Int.sign k * Int.sign d * |k|
      = (Int.sign d * Int.sign d) * (Int.sign k * |k|) := by ring
    _ = k := by rw [hdd, Int.sign_mul_abs, one_mul]

theorem isInt64_of_isInt (x : Int) (h : isInt x) : isInt64 x ∧ x ≠ INT64_MIN := by
  unfold isInt at h
  unfold INT_MIN at h
  unfold INT_MAX at h
  unfold isInt64 INT64_MIN INT64_MAX
  omega

/-! ## C19: scaling by a unit ratio -/

/-- C19: for `d ≠ 0`, `rescale( d, v, d )` returns `v`: for the `int`
specialisation on `int` arguments, and for the `int64_t` specialisation
on `int64_t` arguments other than `INT64_MIN`, whichever branch is
taken. -/
theorem C19_rescale_unit_ratio (v d : Int) (hd0 : d ≠ 0) :
    (isInt v → isInt d → rescale_int d v d = some v)
      ∧ (isInt64 v → isInt64 d → v ≠ INT64_MIN → d ≠ INT64_MIN →
          rescale_int64 d v d = some v) := by
  constructor
  · intro hv hd
    have h := rescale_int_eq d v d hd hv hd0
      (by rw [Int.mul_tdiv_cancel_left _ hd0]; exact hv)
    rw [Int.mul_tdiv_cancel_left _ hd0] at h
    exact h
  · intro hv hd hv1 hd1
    have hnear : rescaleNearest d v d = v := by
      rw [rescaleNearest_of_dvd d v d hd0 (Dvd.intro v rfl),
        Int.mul_ediv_cancel_left _ hd0]
    have hfit : isInt64 (rescaleNearest d v d) := by rw [hnear]; exact hv
    have hmin : rescaleNearest d v d ≠ INT64_MIN := by rw [hnear]; exact hv1
    have h := rescale_int64_eq d v d hd hv hd hd1 hv1 hd1 hd0
      (rescaleMagnitude_lt d v d hd0 hfit hmin)
    rw [rescaleSign_mul_magnitude d v d hd0, hnear] at h
    exact h

/-- C19 (witness): `d = 3`, `v = -5` for both specialisations, and for
`rescale<int64_t>` a denominator above `INT_MAX` and a value above
`INT_MAX`. -/
theorem C19_rescale_unit_ratio_witness :
    (3 : Int) ≠ 0 ∧ isInt (-5) ∧ isInt 3
      ∧ rescale_int 3 (-5) 3 = some (-5)
      ∧ rescale_int64 3 (-5) 3 = some (-5)
      ∧ rescale_int64 1099511627776 (-7) 1099511627776 = some (-7)
      ∧ rescale_int64 (-3) 1099511627776 (-3) = some 1099511627776 :=
  ⟨by decide, by decide, by decide,
    (C19_rescale_unit_ratio (-5) 3 (by decide)).1 (by decide) (by decide),
    (C19_rescale_unit_ratio (-5) 3 (by decide)).2 (by decide) (by decide)
      (by decide) (by decide),
    (C19_rescale_unit_ratio (-7) 1099511627776 (by decide)).2 (by decide)
      (by decide) (by decide) (by decide),
    (C19_rescale_unit_ratio 1099511627776 (-3) (by decide)).2 (by decide)
      (by decide) (by decide) (by decide)⟩

/-! ## C20: the two integer specialisations -/

/-- C20 (as stated, refuted): for `n = v = 65536` and `d = 1`, `d`
divides `n * v`, and `rescale<int>` returns 0 while `rescale<int64_t>`
returns 4294967296. -/
theorem C20_rescale_int_differs_on_exact_quotient :
    isInt 65536 ∧ isInt 1 ∧ (1 : Int) ∣ 65536 * 65536
      ∧ rescale_int 65536 65536 1 = some 0
      ∧ rescale_int64 65536 65536 1 = some 4294967296
      ∧ rescale_int 65536 65536 1 ≠ rescale_int64 65536 65536 1 := by
  refine ⟨by decide, by decide, one_dvd _, by decide, by decide, by decide⟩

/-- C20 (amended): `rescale<int>` truncates the quotient toward zero and
`rescale<int64_t>` rounds it to the nearest integer, so they differ on
some `int` inputs: on 1, 1, 2 they return 0 and 1; on `int` arguments
with `d ≠ 0`, they agree whenever `d` divides `n * v` exactly and the
quotient fits in `int`, both returning that quotient. -/
theorem C20_rescale_specialisations (n v d : Int) (hn : isInt n) (hv : isInt v)
    (hd : isInt d) (hd0 : d ≠ 0) (hdvd : d ∣ n * v) (hfit : isInt (n * v / d)) :
    (rescale_int 1 1 2 = some 0 ∧ rescale_int64 1 1 2 = some 1)
      ∧ rescale_int n v d = some (n * v / d)
      ∧ rescale_int64 n v d = some (n * v / d)
      ∧ rescale_int n v d = rescale_int64 n v d := by
  have hq : Int.tdiv (n * v) d = n * v / d := Int.tdiv_eq_ediv_of_dvd hdvd
  have h32 : rescale_int n v d = some (n * v / d) := by
    have h := rescale_int_eq n v d hn hv hd0 (by rw [hq]; exact hfit)
    rw [hq] at h
    exact h
  have hnear := rescaleNearest_of_dvd n v d hd0 hdvd
  have hfit64 : isInt64 (rescaleNearest n v d) := by
    rw [hnear]; exact (isInt64_of_isInt _ hfit).1
  have hmin64 : rescaleNearest n v d ≠ INT64_MIN := by
    rw [hnear]; exact (isInt64_of_isInt _ hfit).2
  have h64 : rescale_int64 n v d = some (n * v / d) := by
    have h := rescale_int64_eq n v d (isInt64_of_isInt n hn).1
      (isInt64_of_isInt v hv).1 (isInt64_of_isInt d hd).1
      (isInt64_of_isInt n hn).2 (isInt64_of_isInt v hv).2
      (isInt64_of_isInt d hd).2 hd0
      (rescaleMagnitude_lt n v d hd0 hfit64 hmin64)
    rw [rescaleSign_mul_magnitude n v d hd0, hnear] at h
    exact h
  exact ⟨⟨by decide, by decide⟩, h32, h64, h32.trans h64.symm⟩

/-- C20 (witness): `n = -6`, `v = INT_MIN`, `d = 12`: both
specialisations return 1073741824. -/
theorem C20_rescale_specialisations_witness :
    isInt (-6) ∧ isInt (-2147483648) ∧ isInt 12 ∧ (12 : Int) ≠ 0
      ∧ (12 : Int) ∣ -6 * -2147483648 ∧ isInt (-6 * -2147483648 / 12)
      ∧ rescale_int (-6) (-2147483648) 12 = some 1073741824
      ∧ rescale_int64 (-6) (-2147483648) 12 = some 1073741824 :=
  ⟨by decide, by decide, by decide, by decide, by decide, by decide,
    (C20_rescale_specialisations (-6) (-2147483648) 12 (by decide) (by decide)
      (by decide) (by decide) (by decide) (by decide)).2.1.trans (by decide),
    (C20_rescale_specialisations (-6) (-2147483648) 12 (by decide) (by decide)
      (by decide) (by decide) (by decide) (by decide)).2.2.1.trans (by decide)⟩

end ShapeIndexList
